import Mathlib

/-!
Verification of the goa DSL evaluation engine (package `eval`).

The Go source (`src/eval/eval.go`) is embedded shallowly:

* Expressions (`Expr`) carry the capabilities the engine dispatches on:
  a qualified name (`EvalName`), an optional deferred initializer (the
  `Source` interface, whose `DSL()` callback is modelled as a list of
  primitive `Action`s: report an error, append an expression to the set
  being executed, register a new root), an optional validator (the
  `Validator` interface; its `Validate()` result is a fixed value: `none`
  for nil, `some e` for an error, and the outer `Option` marks whether the
  capability is implemented at all), and a `Finalizer` flag.
* Go's `error` values produced and consumed by the engine are `VErr`:
  either a plain message or a `*ValidationErrors` batch (two parallel
  lists, as in the Go struct).
* The process-wide `Context` (its type lives in `context.go`, which is not
  part of the sources) is `EvalState`: the expression `Stack`, the
  append-only `Errors` collection (a list of `ErrorRecord`s, one per
  `Context.Record` call), and the registered roots. `Record` appends;
  this is modelled from the spec ("an ordered, append-only collection").
  The fields `visitedRoots`, `visitedExprs`, `validated` and `finalized`
  are observation instrumentation: they record, in order, which roots and
  expressions the engine iterated, which expressions had `Validate`
  invoked, and which had `Finalize` invoked. Engine code only appends to
  them at the exact points where the Go code performs those calls.
* `Error` records in Go carry a file and line computed by inspecting the
  runtime call stack (`computeErrorLocation`); that part is runtime
  introspection and is not modelled, a record keeps only its `GoError`.
-/

namespace GoaEval

mutual

/-- An expression: `EvalName`, optional `Source` DSL, optional `Validator`
result, `Finalizer` capability flag. -/
inductive Expr : Type where
  | mk : String → Option (List Action) → Option (Option VErr) → Bool → Expr

/-- A Go `error` value as the engine can observe it: a plain error (just a
message) or a `*ValidationErrors` batch carrying its two parallel lists. -/
inductive VErr : Type where
  | plain : String → VErr
  | batch : List VErr → List Expr → VErr

/-- One primitive step of a DSL callback: the three effects through which
DSL code interacts with the engine state. -/
inductive Action : Type where
  | reportError : String → Action
  | appendExpr : Expr → Action
  | registerRoot : Root → Action

/-- A DSL root: `DSLName`, `DependsOn` (by name), and its expression sets
(`IterateSets` yields them in order). -/
inductive Root : Type where
  | mk : String → List String → List (List Expr) → Root

end

def Expr.name : Expr → String
  | .mk n _ _ _ => n

def Expr.dsl : Expr → Option (List Action)
  | .mk _ d _ _ => d

def Expr.validator : Expr → Option (Option VErr)
  | .mk _ _ v _ => v

def Expr.finalizer : Expr → Bool
  | .mk _ _ _ f => f

def Root.dslName : Root → String
  | .mk n _ _ => n

def Root.dependsOn : Root → List String
  | .mk _ d _ => d

def Root.sets : Root → List (List Expr)
  | .mk _ _ s => s

/-- `ValidationErrors` records the errors encountered when running
Validate: two parallel lists, as in the Go struct. -/
structure ValidationErrors where
  Errors : List VErr := []
  Exprs : List Expr := []

/-- Whether a `VErr` is a `*ValidationErrors` batch (Go's type assertion
`err.(*ValidationErrors)`). -/
def VErr.isBatch : VErr → Bool
  | .plain _ => false
  | .batch _ _ => true

/-- `ValidationErrors.Merge`: merges validation errors into the target
(the `nil` receiver check becomes an `Option` argument). -/
def ValidationErrors.Merge (verr : ValidationErrors) (err : Option ValidationErrors) :
    ValidationErrors :=
  match err with
  | none => verr
  | some e => { Errors := verr.Errors ++ e.Errors, Exprs := verr.Exprs ++ e.Exprs }

/-- `ValidationErrors.AddError`: adds a validation error, flattening a
batch-shaped error (one level) instead of nesting it. -/
def ValidationErrors.AddError (verr : ValidationErrors) (d : Expr) (err : VErr) :
    ValidationErrors :=
  match err with
  | .batch es xs => { Errors := verr.Errors ++ es, Exprs := verr.Exprs ++ xs }
  | e => { Errors := verr.Errors ++ [e], Exprs := verr.Exprs ++ [d] }

/-- `ValidationErrors.Add`: adds a formatted validation error (the
`fmt.Errorf` result is a plain error). -/
def ValidationErrors.Add (verr : ValidationErrors) (d : Expr) (msg : String) :
    ValidationErrors :=
  verr.AddError d (.plain msg)

mutual

/-- Rendering of a `VErr` through Go's `Error() string`: a plain error is
its message; a `ValidationErrors` batch renders one
`"<owner-name>: <message>"` line per error, joined by newlines. -/
def VErr.render : VErr → String
  | .plain m => m
  | .batch es xs => String.intercalate "\n" (renderLines es xs)

/-- The per-error lines of `ValidationErrors.Error` (Go builds
`fmt.Sprintf("%s: %s", verr.Exprs[i].EvalName(), err)` for each index). -/
def renderLines : List VErr → List Expr → List String
  | e :: es, x :: xs => (x.name ++ ": " ++ VErr.render e) :: renderLines es xs
  | _, _ => []

end

/-- `ValidationErrors.Error`: one `"<owner-name>: <message>"` line per
recorded error, in insertion order. -/
def ValidationErrors.Error (verr : ValidationErrors) : String :=
  String.intercalate "\n" (renderLines verr.Errors verr.Exprs)

/-- An `*Error` record as stored in `Context.Errors` (the `File`/`Line`
fields computed from the runtime call stack are not modelled). -/
structure ErrorRecord where
  goError : VErr

/-- The evaluation context plus observation instrumentation (see the
module comment): `stack` and `errors` are `Context.Stack` and
`Context.Errors`, `roots` the registered (sorted) roots; the last four
fields only record which engine callbacks were invoked, in order. -/
structure EvalState where
  stack : List Expr := []
  errors : List ErrorRecord := []
  roots : List Root := []
  visitedRoots : List String := []
  visitedExprs : List Expr := []
  validated : List String := []
  finalized : List String := []

/-- Modelled from the spec: `Stack.Current` (in `context.go`, not among
the sources) returns the top of the stack — the most recently pushed,
not-yet-popped expression — or nil when the stack is empty. -/
def stackCurrent (s : List Expr) : Option Expr :=
  s.getLast?

/-- `Top`, the expression returned by `Current` when the execution stack
is empty; its `EvalName` is the string `"top-level"`. -/
def Top : Expr :=
  .mk "top-level" none none false

/-- `Current`: the expression whose DSL is currently being executed, or
`Top` when the execution stack is empty. -/
def Current (st : EvalState) : Expr :=
  match stackCurrent st.stack with
  | none => Top
  | some current => current

/-- `ReportError`: derives the suffix naming the current expression
(`" in <name>"`, or `" (top level)"` when the stack is empty, or nothing
when the current expression's name is empty), then records the error
(`Context.Record` appends, modelled from the spec: the `Errors` collection
is ordered and append-only). The `fmt.Printf`-style values are folded into
the message string. -/
def reportSuffix (stack : List Expr) : String :=
  match stackCurrent stack with
  | some cur => if cur.name ≠ "" then " in " ++ cur.name else ""
  | none => " (top level)"

def ReportError (fm : String) (st : EvalState) : EvalState :=
  { st with errors := st.errors ++ [⟨VErr.plain (fm ++ reportSuffix st.stack)⟩] }

/-- Effect of one DSL action on the engine state and on the expression
set currently being executed. -/
def runAction (st : EvalState) (cs : List Expr) : Action → EvalState × List Expr
  | .reportError fm => (ReportError fm st, cs)
  | .appendExpr e => (st, cs ++ [e])
  | .registerRoot r => ({ st with roots := st.roots ++ [r] }, cs)

/-- Runs the actions of a DSL callback in order. -/
def runActions : EvalState → List Expr → List Action → EvalState × List Expr
  | st, cs, [] => (st, cs)
  | st, cs, a :: rest =>
    let (st', cs') := runAction st cs a
    runActions st' cs' rest

/-- `Execute`: runs the given DSL to initialize the given expression.
A nil DSL returns true at once; otherwise the error count is captured,
the expression pushed on the stack, the DSL run, the stack popped
(`Stack[:len(Stack)-1]`), and the result is whether the error count did
not grow. -/
def Execute (dsl : Option (List Action)) (d : Expr) (st : EvalState) (cs : List Expr) :
    (EvalState × List Expr) × Bool :=
  match dsl with
  | none => ((st, cs), true)
  | some acts =>
    let initCount := st.errors.length
    let st1 := { st with stack := st.stack ++ [d] }
    let (st2, cs2) := runActions st1 cs acts
    let st3 := { st2 with stack := st2.stack.dropLast }
    ((st3, cs2), decide (st3.errors.length ≤ initCount))

/-- The inner `for _, def := range set[executed:]` of `runSet`: each
expression is counted (recorded in `visitedExprs`) and, when it
implements `Source`, run through `Execute`. -/
def runExprs : EvalState → List Expr → List Expr → EvalState × List Expr
  | st, cs, [] => (st, cs)
  | st, cs, d :: rest =>
    let st0 := { st with visitedExprs := st.visitedExprs ++ [d] }
    match d.dsl with
    | none => runExprs st0 cs rest
    | some acts =>
      let r := Execute (some acts) d st0 cs
      runExprs r.1.1 r.1.2 rest

/-- The `for executed < len(set)` loop of `runSet`. In Go `recursed`
counts up and the loop errors once `recursed > 100` (after processing
that iteration); here `fuel` counts the remaining allowed iterations
down from 100, so iteration number `i` runs with `fuel = 100 - (i - 1)`
and the error fires after the iteration with `fuel = 0` — the 101st —
exactly when `recursed = 101 > 100`. Each iteration snapshots
`set[executed:]` and advances `executed` to the length the set had when
the snapshot was taken. -/
def runSetLoop : Nat → Nat → EvalState → List Expr → (EvalState × List Expr) × Option String
  | fuel, executed, st, cs =>
    if executed < cs.length then
      let r := runExprs st cs (cs.drop executed)
      match fuel with
      | 0 => (r, some "too many generated expressions, infinite loop?")
      | fuel + 1 => runSetLoop fuel cs.length r.1 r.2
    else ((st, cs), none)

/-- `runSet`: executes the DSL for all expressions in the given set; the
expression DSLs may append to the set as they execute. Returns the final
state, the final (possibly grown) set, and the error value `runSet`
returns to its caller. -/
def runSet (st : EvalState) (cs : List Expr) : (EvalState × List Expr) × Option String :=
  runSetLoop 100 0 st cs

/-- `root.IterateSets(runSet)`: modelled from the spec — `IterateSets`
(implemented by out-of-scope builder code) yields each of the root's
expression sets in order to the iterator. Its Go signature returns
nothing, so the error value `runSet` returns has no path back to
`RunDSL`; it is dropped here exactly as it is there. The root's name is
recorded as visited. -/
def runRoot (st : EvalState) (r : Root) : EvalState :=
  let st0 := { st with visitedRoots := st.visitedRoots ++ [r.dslName] }
  r.sets.foldl (fun s set => (runSet s set).1.1) st0

/-- The `for executed < len(roots)` loop of `RunDSL` (phase 1), with the
same fuel discipline as `runSetLoop` (error after the 101st iteration,
i.e. when Go's `recursed > 100`). Each iteration snapshots
`roots[start:]` — newly registered roots are picked up by the next
iteration. That registered roots are visible to this loop at all is
modelled from the spec: "Root registration performed by a deferred
initializer during execution causes the new root to be evaluated within
the same run" (`Register` lives in `context.go`, not among the
sources). -/
def phase1Loop : Nat → Nat → EvalState → EvalState × Option String
  | fuel, executed, st =>
    if executed < st.roots.length then
      let snapshot := st.roots.drop executed
      let st' := snapshot.foldl runRoot st
      match fuel with
      | 0 => (st', some "too many generated roots, infinite loop?")
      | fuel + 1 => phase1Loop fuel st.roots.length st'
    else (st, none)

/-- One step of `validateSet`'s loop: skip expressions without the
`Validator` capability; for the others record the `Validate` invocation
and `AddError` a non-nil result. -/
def validateStep (p : ValidationErrors × List String) (d : Expr) :
    ValidationErrors × List String :=
  match d.validator with
  | none => p
  | some res =>
    let vtd := p.2 ++ [d.name]
    match res with
    | none => (p.1, vtd)
    | some err => (p.1.AddError d err, vtd)

/-- `validateSet`: builds a fresh `ValidationErrors`, adds (with
flattening) the non-nil result of each expression's `Validate`, and, when
non-empty, records the batch as a single wrapped error
(`Context.Record(&Error{GoError: errors})`). -/
def validateSet (st : EvalState) (set : List Expr) : EvalState :=
  let q := set.foldl validateStep ({}, st.validated)
  let st1 := { st with validated := q.2 }
  if q.1.Errors.length > 0 then
    { st1 with errors := st1.errors ++ [⟨VErr.batch q.1.Errors q.1.Exprs⟩] }
  else st1

/-- `root.IterateSets(validateSet)` (visitor modelled from the spec, as
for `runRoot`). -/
def validateRoot (st : EvalState) (r : Root) : EvalState :=
  r.sets.foldl validateSet st

/-- `finalizeSet`: runs `Finalize` on all set expressions that define
one; the invocation is recorded in `finalized`. -/
def finalizeSet (st : EvalState) (set : List Expr) : EvalState :=
  set.foldl
    (fun s d => if d.finalizer then { s with finalized := s.finalized ++ [d.name] } else s)
    st

/-- `root.IterateSets(finalizeSet)` (visitor modelled from the spec). -/
def finalizeRoot (st : EvalState) (r : Root) : EvalState :=
  r.sets.foldl finalizeSet st

/-- Modelled from the spec: whether a root's dependency is satisfied.
A dependency counts only when it names a registered root ("a list of
other roots it depends on"); a satisfied one is already scheduled. -/
def depsMet (allNames done : List String) (r : Root) : Bool :=
  r.dependsOn.all (fun d => done.contains d || !(allNames.contains d))

/-- Modelled from the spec: pick the earliest-registered pending root
whose registered dependencies are all scheduled ("Ties among mutually
independent roots: stable, registration order"), returning it and the
remaining pending roots in their original order. -/
def pickFirst (allNames done : List String) : List Root → Option (Root × List Root)
  | [] => none
  | r :: rest =>
    if depsMet allNames done r then some (r, rest)
    else
      match pickFirst allNames done rest with
      | some (p, rest') => some (p, r :: rest')
      | none => none

/-- The descriptive scheduling error: it names the roots that could not
be scheduled because of a dependency cycle. -/
def cycleMsg (pending : List Root) : String :=
  "dependency cycle among DSL roots: " ++
    String.intercalate ", " (pending.map Root.dslName)

/-- Modelled from the spec: the scheduling loop — repeatedly emit the
earliest-registered ready root; when none is ready the dependency
relation is cyclic and scheduling fails. The fuel starts at the number of
roots; each step consumes one pending root, so fuel never runs out before
the pending list empties. -/
def sortLoop (allNames : List String) :
    Nat → List String → List Root → List Root → Except String (List Root)
  | 0, _, acc, pending =>
    match pending with
    | [] => .ok acc
    | _ => .error (cycleMsg pending)
  | fuel + 1, done, acc, pending =>
    match pending with
    | [] => .ok acc
    | _ =>
      match pickFirst allNames done pending with
      | none => .error (cycleMsg pending)
      | some (r, rest) => sortLoop allNames fuel (done ++ [r.dslName]) (acc ++ [r]) rest

/-- Modelled from the spec: `Context.SortRoots` (in `context.go`, not
among the sources) — "Output: roots ordered such that every root appears
after all roots it depends on (a topological ordering of the dependency
relation). Ties among mutually independent roots: stable, registration
order. Failure: if the dependency relation contains a cycle, scheduling
fails with a descriptive error identifying the cycle." -/
def SortRoots (roots : List Root) : Except String (List Root) :=
  sortLoop (roots.map Root.dslName) roots.length [] [] roots

/-- One dependency edge of the relation among registered roots:
`depEdge roots a b` holds when the registered root named `a` declares a
dependency on the registered name `b`. -/
def depEdge (roots : List Root) (a b : String) : Bool :=
  match roots.find? (fun r => r.dslName == a) with
  | some r => r.dependsOn.contains b && (roots.map Root.dslName).contains b
  | none => false

/-- `reachesIn roots n a b`: there is a dependency path of length between
1 and `n` from `a` to `b`. -/
def reachesIn (roots : List Root) : Nat → String → String → Bool
  | 0, _, _ => false
  | n + 1, a, b =>
    (roots.map Root.dslName).any fun c =>
      depEdge roots a c && (c == b || reachesIn roots n c b)

/-- The dependency relation contains a cycle: some registered root
reaches itself by a non-empty dependency path (any cycle contains one of
length at most the number of roots). -/
def hasCycle (roots : List Root) : Bool :=
  roots.any fun r => reachesIn roots roots.length r.dslName r.dslName

/-- The `error` value `RunDSL` returns: the scheduling error, one of the
fatal non-termination errors, or the accumulated `Context.Errors`
(a `MultiError`). -/
inductive RunError : Type where
  | sortError : String → RunError
  | fatal : String → RunError
  | multi : List ErrorRecord → RunError

/-- `RunDSL`: sorts the roots (failure is returned as-is), short-circuits
on an empty root list, runs the capped phase-1 loop (a cap overrun is
returned at once), then gates on `Context.Errors` before validating,
gates again before finalizing, and returns nil on success. The emptiness
test on `Context.Errors` models Go's `Context.Errors != nil` (the
collection is append-only and starts empty, per the spec). -/
def RunDSL (st0 : EvalState) : EvalState × Option RunError :=
  match SortRoots st0.roots with
  | .error m => (st0, some (.sortError m))
  | .ok sorted =>
    if sorted.length = 0 then (st0, none)
    else
      let st := { st0 with roots := sorted }
      match phase1Loop 100 0 st with
      | (st1, some m) => (st1, some (.fatal m))
      | (st1, none) =>
        if st1.errors.length > 0 then (st1, some (.multi st1.errors))
        else
          let st2 := st1.roots.foldl validateRoot st1
          if st2.errors.length > 0 then (st2, some (.multi st2.errors))
          else
            let st3 := st2.roots.foldl finalizeRoot st2
            (st3, none)

/-! ### Basic preservation facts about DSL callbacks -/

theorem runActions_pres (acts : List Action) (st : EvalState) (cs : List Expr) :
    (runActions st cs acts).1.stack = st.stack ∧
    (runActions st cs acts).1.visitedExprs = st.visitedExprs ∧
    (runActions st cs acts).1.visitedRoots = st.visitedRoots ∧
    (runActions st cs acts).1.validated = st.validated ∧
    (runActions st cs acts).1.finalized = st.finalized := by
  induction acts generalizing st cs with
  | nil => simp [runActions]
  | cons a rest ih =>
    cases a <;> simp only [runActions, runAction, ReportError] <;> exact ih _ _

theorem runActions_app (acts : List Action) (st : EvalState) (cs : List Expr) :
    ∃ er rs ce,
      (runActions st cs acts).1.errors = st.errors ++ er ∧
      (runActions st cs acts).1.roots = st.roots ++ rs ∧
      (runActions st cs acts).2 = cs ++ ce := by
  induction acts generalizing st cs with
  | nil => exact ⟨[], [], [], by simp [runActions]⟩
  | cons a rest ih =>
    cases a with
    | reportError fm =>
      obtain ⟨er, rs, ce, h1, h2, h3⟩ := ih (ReportError fm st) cs
      refine ⟨⟨VErr.plain (fm ++ reportSuffix st.stack)⟩ :: er, rs, ce, ?_, ?_, ?_⟩ <;>
        simp only [runActions, runAction, ReportError] at h1 h2 h3 ⊢ <;>
        simp [h1, h2, h3]
    | appendExpr e =>
      obtain ⟨er, rs, ce, h1, h2, h3⟩ := ih st (cs ++ [e])
      refine ⟨er, rs, e :: ce, ?_, ?_, ?_⟩ <;>
        simp only [runActions, runAction] at h1 h2 h3 ⊢ <;>
        simp [h1, h2, h3]
    | registerRoot r =>
      obtain ⟨er, rs, ce, h1, h2, h3⟩ := ih { st with roots := st.roots ++ [r] } cs
      refine ⟨er, r :: rs, ce, ?_, ?_, ?_⟩ <;>
        simp only [runActions, runAction] at h1 h2 h3 ⊢ <;>
        simp [h1, h2, h3]

theorem Execute_spec (acts : List Action) (d : Expr) (st : EvalState) (cs : List Expr) :
    ∃ er rs ce,
      (Execute (some acts) d st cs).1.1.stack = st.stack ∧
      (Execute (some acts) d st cs).1.1.errors = st.errors ++ er ∧
      (Execute (some acts) d st cs).1.1.roots = st.roots ++ rs ∧
      (Execute (some acts) d st cs).1.1.visitedExprs = st.visitedExprs ∧
      (Execute (some acts) d st cs).1.1.visitedRoots = st.visitedRoots ∧
      (Execute (some acts) d st cs).1.1.validated = st.validated ∧
      (Execute (some acts) d st cs).1.1.finalized = st.finalized ∧
      (Execute (some acts) d st cs).1.2 = cs ++ ce ∧
      ((Execute (some acts) d st cs).2 = true ↔ er = []) := by
  obtain ⟨hs, hve, hvr, hva, hf⟩ :=
    runActions_pres acts { st with stack := st.stack ++ [d] } cs
  obtain ⟨er, rs, ce, he, hr, hc⟩ :=
    runActions_app acts { st with stack := st.stack ++ [d] } cs
  simp only at hs hve hvr hva hf he hr
  refine ⟨er, rs, ce, ?_, ?_, ?_, ?_, ?_, ?_, ?_, ?_, ?_⟩ <;>
    simp only [Execute, hs, hve, hvr, hva, hf, he, hr, hc, List.dropLast_concat,
      List.length_append, decide_eq_true_eq]
  constructor
  · intro h
    have : er.length = 0 := by omega
    exact List.length_eq_zero.mp this
  · intro h
    simp [h]

theorem runExprs_spec (snapshot : List Expr) (st : EvalState) (cs : List Expr) :
    (runExprs st cs snapshot).1.visitedExprs = st.visitedExprs ++ snapshot ∧
    (runExprs st cs snapshot).1.stack = st.stack ∧
    (runExprs st cs snapshot).1.visitedRoots = st.visitedRoots ∧
    (runExprs st cs snapshot).1.validated = st.validated ∧
    (runExprs st cs snapshot).1.finalized = st.finalized ∧
    ∃ er rs ce,
      (runExprs st cs snapshot).1.errors = st.errors ++ er ∧
      (runExprs st cs snapshot).1.roots = st.roots ++ rs ∧
      (runExprs st cs snapshot).2 = cs ++ ce := by
  induction snapshot generalizing st cs with
  | nil => exact ⟨by simp [runExprs], by simp [runExprs], by simp [runExprs],
      by simp [runExprs], by simp [runExprs], [], [], [], by simp [runExprs],
      by simp [runExprs], by simp [runExprs]⟩
  | cons d rest ih =>
    cases hd : d.dsl with
    | none =>
      obtain ⟨h1, h2, h3, h4, h5, er, rs, ce, h6, h7, h8⟩ :=
        ih { st with visitedExprs := st.visitedExprs ++ [d] } cs
      simp only at h1 h2 h3 h4 h5 h6 h7
      refine ⟨?_, ?_, ?_, ?_, ?_, er, rs, ce, ?_, ?_, ?_⟩ <;>
        simp only [runExprs, hd] <;> simp [h1, h2, h3, h4, h5, h6, h7, h8]
    | some acts =>
      obtain ⟨er0, rs0, ce0, hst, herr, hroots, hvx, hvr, hvd, hfin, hcs, -⟩ :=
        Execute_spec acts d { st with visitedExprs := st.visitedExprs ++ [d] } cs
      obtain ⟨h1, h2, h3, h4, h5, er, rs, ce, h6, h7, h8⟩ :=
        ih (Execute (some acts) d { st with visitedExprs := st.visitedExprs ++ [d] } cs).1.1
           (Execute (some acts) d { st with visitedExprs := st.visitedExprs ++ [d] } cs).1.2
      simp only at hst herr hroots hvx hvr hvd hfin
      refine ⟨?_, ?_, ?_, ?_, ?_, er0 ++ er, rs0 ++ rs, ce0 ++ ce, ?_, ?_, ?_⟩ <;>
        simp only [runExprs, hd]
      · rw [h1, hvx]; simp
      · rw [h2, hst]
      · rw [h3, hvr]
      · rw [h4, hvd]
      · rw [h5, hfin]
      · rw [h6, herr]; simp
      · rw [h7, hroots]; simp
      · rw [h8, hcs]; simp

theorem runSetLoop_zero (executed : Nat) (st : EvalState) (cs : List Expr) :
    runSetLoop 0 executed st cs =
      if executed < cs.length then
        (runExprs st cs (cs.drop executed),
          some "too many generated expressions, infinite loop?")
      else ((st, cs), none) := rfl

theorem runSetLoop_succ (fuel executed : Nat) (st : EvalState) (cs : List Expr) :
    runSetLoop (fuel + 1) executed st cs =
      if executed < cs.length then
        runSetLoop fuel cs.length (runExprs st cs (cs.drop executed)).1
          (runExprs st cs (cs.drop executed)).2
      else ((st, cs), none) := rfl

theorem runSetLoop_some (fuel : Nat) :
    ∀ (executed : Nat) (st : EvalState) (cs : List Expr) (m : String),
    (runSetLoop fuel executed st cs).2 = some m →
    m = "too many generated expressions, infinite loop?" := by
  induction fuel with
  | zero =>
    intro executed st cs m h
    rw [runSetLoop_zero] at h
    by_cases hc : executed < cs.length
    · simp only [hc, if_true] at h
      exact (Option.some_inj.mp h).symm
    · simp [hc] at h
  | succ fuel ih =>
    intro executed st cs m h
    rw [runSetLoop_succ] at h
    by_cases hc : executed < cs.length
    · simp only [hc, if_true] at h
      exact ih _ _ _ _ h
    · simp [hc] at h

theorem runSetLoop_pres (fuel : Nat) :
    ∀ (executed : Nat) (st : EvalState) (cs : List Expr),
    (runSetLoop fuel executed st cs).1.1.stack = st.stack ∧
    (runSetLoop fuel executed st cs).1.1.visitedRoots = st.visitedRoots ∧
    (runSetLoop fuel executed st cs).1.1.validated = st.validated ∧
    (runSetLoop fuel executed st cs).1.1.finalized = st.finalized ∧
    ∃ vx er rs,
      (runSetLoop fuel executed st cs).1.1.visitedExprs = st.visitedExprs ++ vx ∧
      (runSetLoop fuel executed st cs).1.1.errors = st.errors ++ er ∧
      (runSetLoop fuel executed st cs).1.1.roots = st.roots ++ rs := by
  induction fuel with
  | zero =>
    intro executed st cs
    obtain ⟨h1, h2, h3, h4, h5, er, rs, ce, h6, h7, h8⟩ :=
      runExprs_spec (cs.drop executed) st cs
    rw [runSetLoop_zero]
    by_cases hc : executed < cs.length
    · rw [if_pos hc]
      exact ⟨h2, h3, h4, h5, cs.drop executed, er, rs, h1, h6, h7⟩
    · rw [if_neg hc]
      exact ⟨rfl, rfl, rfl, rfl, [], [], [], by simp, by simp, by simp⟩
  | succ fuel ih =>
    intro executed st cs
    obtain ⟨h1, h2, h3, h4, h5, er, rs, ce, h6, h7, h8⟩ :=
      runExprs_spec (cs.drop executed) st cs
    rw [runSetLoop_succ]
    by_cases hc : executed < cs.length
    case neg => rw [if_neg hc]; exact ⟨rfl, rfl, rfl, rfl, [], [], [], by simp, by simp, by simp⟩
    rw [if_pos hc]
    · obtain ⟨g1, g2, g3, g4, vx', er', rs', g5, g6, g7⟩ :=
        ih cs.length (runExprs st cs (cs.drop executed)).1 (runExprs st cs (cs.drop executed)).2
      refine ⟨by rw [g1, h2], by rw [g2, h3], by rw [g3, h4], by rw [g4, h5],
        cs.drop executed ++ vx', er ++ er', rs ++ rs', ?_, ?_, ?_⟩
      · rw [g5, h1]; simp
      · rw [g6, h6]; simp
      · rw [g7, h7]; simp

theorem runSetLoop_none_visits (fuel : Nat) (v0 : List Expr) :
    ∀ (executed : Nat) (st : EvalState) (cs : List Expr),
    executed ≤ cs.length →
    st.visitedExprs = v0 ++ cs.take executed →
    (runSetLoop fuel executed st cs).2 = none →
    (runSetLoop fuel executed st cs).1.1.visitedExprs =
      v0 ++ (runSetLoop fuel executed st cs).1.2 := by
  induction fuel with
  | zero =>
    intro executed st cs hle hinv hnone
    rw [runSetLoop_zero] at hnone ⊢
    by_cases hc : executed < cs.length
    · simp [hc] at hnone
    · simp only [hc, if_false]
      have : cs.take executed = cs := List.take_of_length_le (Nat.le_of_not_lt hc)
      rw [hinv, this]
  | succ fuel ih =>
    intro executed st cs hle hinv hnone
    rw [runSetLoop_succ] at hnone ⊢
    by_cases hc : executed < cs.length
    · obtain ⟨h1, -, -, -, -, -, -, ce, -, -, h8⟩ := runExprs_spec (cs.drop executed) st cs
      simp only [hc, if_true] at hnone ⊢
      have hvx : (runExprs st cs (cs.drop executed)).1.visitedExprs = v0 ++ cs := by
        rw [h1, hinv, List.append_assoc, List.take_append_drop]
      have hcs : (runExprs st cs (cs.drop executed)).2 = cs ++ ce := h8
      have hlen : cs.length ≤ (runExprs st cs (cs.drop executed)).2.length := by
        rw [hcs]; simp
      have hinv' : (runExprs st cs (cs.drop executed)).1.visitedExprs =
          v0 ++ (runExprs st cs (cs.drop executed)).2.take cs.length := by
        rw [hcs, List.take_append_of_le_length (Nat.le_refl _), List.take_length, hvx]
      exact ih cs.length _ _ hlen hinv' hnone
    · simp only [hc, if_false]
      have : cs.take executed = cs := List.take_of_length_le (Nat.le_of_not_lt hc)
      rw [hinv, this]

/-- A linear chain of generated expressions: the DSL of `chainExpr (n+1)`
appends `chainExpr n` to the set being executed, so a set starting as
`[chainExpr n]` grows by one expression per loop iteration and stabilizes
after `n + 1` iterations. -/
def chainExpr : Nat → Expr
  | 0 => .mk "c0" none none false
  | n + 1 => .mk ("c" ++ toString (n + 1)) (some [.appendExpr (chainExpr n)]) none false

/-- Claim C4: for every expression set processed in the execute phase,
if `runSet` finishes without tripping the cap then its final (grown) set
is exactly the list of expressions that were visited after the initial
ones — nothing appended during iteration is skipped — and whenever the
loop gives up it does so with the "too many generated expressions" error
rather than iterating forever. -/
theorem c4_set_growth (st : EvalState) (cs : List Expr) (st' : EvalState)
    (cs' : List Expr) (res : Option String)
    (h : runSet st cs = ((st', cs'), res)) :
    (res = none → st'.visitedExprs = st.visitedExprs ++ cs') ∧
    (∀ m, res = some m → m = "too many generated expressions, infinite loop?") := by
  have e1 : (runSetLoop 100 0 st cs).2 = res := by rw [show runSetLoop 100 0 st cs = ((st', cs'), res) from h]
  have e2 : (runSetLoop 100 0 st cs).1.1 = st' := by rw [show runSetLoop 100 0 st cs = ((st', cs'), res) from h]
  have e3 : (runSetLoop 100 0 st cs).1.2 = cs' := by rw [show runSetLoop 100 0 st cs = ((st', cs'), res) from h]
  constructor
  · intro hn
    have hv := runSetLoop_none_visits 100 st.visitedExprs 0 st cs (Nat.zero_le _)
      (by simp) (by rw [e1, hn])
    rw [e2, e3] at hv
    exact hv
  · intro m hm
    exact runSetLoop_some 100 0 st cs m (by rw [e1, hm])

/-- Claim C4 witness: a set starting as `[chainExpr 2]` grows to three
expressions, all of which are visited in order, with no error. -/
theorem c4_witness :
    (runSet {} [chainExpr 2]).2 = none ∧
    (runSet {} [chainExpr 2]).1.1.visitedExprs = [] ++ (runSet {} [chainExpr 2]).1.2 ∧
    (runSet {} [chainExpr 2]).1.2 = [chainExpr 2, chainExpr 1, chainExpr 0] :=
  ⟨rfl,
   (c4_set_growth {} [chainExpr 2] (runSet {} [chainExpr 2]).1.1
      (runSet {} [chainExpr 2]).1.2 (runSet {} [chainExpr 2]).2 rfl).1 rfl,
   rfl⟩

theorem foldlRunSet_spec (sets : List (List Expr)) (st : EvalState) :
    (sets.foldl (fun s set => (runSet s set).1.1) st).stack = st.stack ∧
    (sets.foldl (fun s set => (runSet s set).1.1) st).visitedRoots = st.visitedRoots ∧
    (sets.foldl (fun s set => (runSet s set).1.1) st).validated = st.validated ∧
    (sets.foldl (fun s set => (runSet s set).1.1) st).finalized = st.finalized ∧
    ∃ vx er rts,
      (sets.foldl (fun s set => (runSet s set).1.1) st).visitedExprs =
        st.visitedExprs ++ vx ∧
      (sets.foldl (fun s set => (runSet s set).1.1) st).errors = st.errors ++ er ∧
      (sets.foldl (fun s set => (runSet s set).1.1) st).roots = st.roots ++ rts := by
  induction sets generalizing st with
  | nil => exact ⟨rfl, rfl, rfl, rfl, [], [], [], by simp, by simp, by simp⟩
  | cons set rest ih =>
    obtain ⟨h1, h2, h3, h4, vx, er, rts, h5, h6, h7⟩ := runSetLoop_pres 100 0 st set
    obtain ⟨g1, g2, g3, g4, vx', er', rts', g5, g6, g7⟩ := ih (runSet st set).1.1
    simp only [List.foldl_cons]
    refine ⟨by rw [g1]; exact h1, by rw [g2]; exact h2, by rw [g3]; exact h3,
      by rw [g4]; exact h4, vx ++ vx', er ++ er', rts ++ rts', ?_, ?_, ?_⟩
    · rw [g5, show (runSet st set).1.1.visitedExprs = st.visitedExprs ++ vx from h5]; simp
    · rw [g6, show (runSet st set).1.1.errors = st.errors ++ er from h6]; simp
    · rw [g7, show (runSet st set).1.1.roots = st.roots ++ rts from h7]; simp

theorem runRoot_spec (r : Root) (st : EvalState) :
    (runRoot st r).stack = st.stack ∧
    (runRoot st r).visitedRoots = st.visitedRoots ++ [r.dslName] ∧
    (runRoot st r).validated = st.validated ∧
    (runRoot st r).finalized = st.finalized ∧
    ∃ vx er rts,
      (runRoot st r).visitedExprs = st.visitedExprs ++ vx ∧
      (runRoot st r).errors = st.errors ++ er ∧
      (runRoot st r).roots = st.roots ++ rts := by
  obtain ⟨h1, h2, h3, h4, vx, er, rts, h5, h6, h7⟩ :=
    foldlRunSet_spec r.sets { st with visitedRoots := st.visitedRoots ++ [r.dslName] }
  exact ⟨h1, h2, h3, h4, vx, er, rts, h5, h6, h7⟩

theorem foldlRunRoot_spec (rs : List Root) (st : EvalState) :
    (rs.foldl runRoot st).stack = st.stack ∧
    (rs.foldl runRoot st).visitedRoots = st.visitedRoots ++ rs.map Root.dslName ∧
    (rs.foldl runRoot st).validated = st.validated ∧
    (rs.foldl runRoot st).finalized = st.finalized ∧
    ∃ vx er rts,
      (rs.foldl runRoot st).visitedExprs = st.visitedExprs ++ vx ∧
      (rs.foldl runRoot st).errors = st.errors ++ er ∧
      (rs.foldl runRoot st).roots = st.roots ++ rts := by
  induction rs generalizing st with
  | nil => exact ⟨rfl, by simp, rfl, rfl, [], [], [], by simp, by simp, by simp⟩
  | cons r rest ih =>
    obtain ⟨h1, h2, h3, h4, vx, er, rts, h5, h6, h7⟩ := runRoot_spec r st
    obtain ⟨g1, g2, g3, g4, vx', er', rts', g5, g6, g7⟩ := ih (runRoot st r)
    simp only [List.foldl_cons, List.map_cons]
    refine ⟨by rw [g1, h1], ?_, by rw [g3, h3], by rw [g4, h4],
      vx ++ vx', er ++ er', rts ++ rts', ?_, ?_, ?_⟩
    · rw [g2, h2]; simp
    · rw [g5, h5]; simp
    · rw [g6, h6]; simp
    · rw [g7, h7]; simp

theorem phase1Loop_zero (executed : Nat) (st : EvalState) :
    phase1Loop 0 executed st =
      if executed < st.roots.length then
        ((st.roots.drop executed).foldl runRoot st,
          some "too many generated roots, infinite loop?")
      else (st, none) := rfl

theorem phase1Loop_succ (fuel executed : Nat) (st : EvalState) :
    phase1Loop (fuel + 1) executed st =
      if executed < st.roots.length then
        phase1Loop fuel st.roots.length ((st.roots.drop executed).foldl runRoot st)
      else (st, none) := rfl

theorem phase1Loop_some (fuel : Nat) :
    ∀ (executed : Nat) (st : EvalState) (m : String),
    (phase1Loop fuel executed st).2 = some m →
    m = "too many generated roots, infinite loop?" := by
  induction fuel with
  | zero =>
    intro executed st m h
    rw [phase1Loop_zero] at h
    by_cases hc : executed < st.roots.length
    · simp only [hc, if_true] at h
      exact (Option.some_inj.mp h).symm
    · simp [hc] at h
  | succ fuel ih =>
    intro executed st m h
    rw [phase1Loop_succ] at h
    by_cases hc : executed < st.roots.length
    · simp only [hc, if_true] at h
      exact ih _ _ _ h
    · simp [hc] at h

theorem phase1Loop_pres (fuel : Nat) :
    ∀ (executed : Nat) (st : EvalState),
    (phase1Loop fuel executed st).1.stack = st.stack ∧
    (phase1Loop fuel executed st).1.validated = st.validated ∧
    (phase1Loop fuel executed st).1.finalized = st.finalized ∧
    ∃ vr vx er rts,
      (phase1Loop fuel executed st).1.visitedRoots = st.visitedRoots ++ vr ∧
      (phase1Loop fuel executed st).1.visitedExprs = st.visitedExprs ++ vx ∧
      (phase1Loop fuel executed st).1.errors = st.errors ++ er ∧
      (phase1Loop fuel executed st).1.roots = st.roots ++ rts := by
  induction fuel with
  | zero =>
    intro executed st
    obtain ⟨h1, h2, h3, h4, vx, er, rts, h5, h6, h7⟩ :=
      foldlRunRoot_spec (st.roots.drop executed) st
    rw [phase1Loop_zero]
    by_cases hc : executed < st.roots.length
    · rw [if_pos hc]
      exact ⟨h1, h3, h4, (st.roots.drop executed).map Root.dslName, vx, er, rts,
        h2, h5, h6, h7⟩
    · rw [if_neg hc]
      exact ⟨rfl, rfl, rfl, [], [], [], [], by simp, by simp, by simp, by simp⟩
  | succ fuel ih =>
    intro executed st
    rw [phase1Loop_succ]
    by_cases hc : executed < st.roots.length
    case neg =>
      rw [if_neg hc]
      exact ⟨rfl, rfl, rfl, [], [], [], [], by simp, by simp, by simp, by simp⟩
    rw [if_pos hc]
    obtain ⟨h1, h2, h3, h4, vx, er, rts, h5, h6, h7⟩ :=
      foldlRunRoot_spec (st.roots.drop executed) st
    obtain ⟨g1, g2, g3, vr', vx', er', rts', g4, g5, g6, g7⟩ :=
      ih st.roots.length ((st.roots.drop executed).foldl runRoot st)
    refine ⟨by rw [g1, h1], by rw [g2, h3], by rw [g3, h4],
      (st.roots.drop executed).map Root.dslName ++ vr', vx ++ vx', er ++ er',
      rts ++ rts', ?_, ?_, ?_, ?_⟩
    · rw [g4, h2]; simp
    · rw [g5, h5]; simp
    · rw [g6, h6]; simp
    · rw [g7, h7]; simp

theorem phase1Loop_none_visits (fuel : Nat) (v0 : List String) :
    ∀ (executed : Nat) (st : EvalState),
    executed ≤ st.roots.length →
    st.visitedRoots = v0 ++ (st.roots.take executed).map Root.dslName →
    (phase1Loop fuel executed st).2 = none →
    (phase1Loop fuel executed st).1.visitedRoots =
      v0 ++ (phase1Loop fuel executed st).1.roots.map Root.dslName := by
  induction fuel with
  | zero =>
    intro executed st hle hinv hnone
    rw [phase1Loop_zero] at hnone ⊢
    by_cases hc : executed < st.roots.length
    · simp [hc] at hnone
    · simp only [hc, if_false]
      rw [hinv, List.take_of_length_le (Nat.le_of_not_lt hc)]
  | succ fuel ih =>
    intro executed st hle hinv hnone
    rw [phase1Loop_succ] at hnone ⊢
    by_cases hc : executed < st.roots.length
    case neg =>
      simp only [hc, if_false]
      rw [hinv, List.take_of_length_le (Nat.le_of_not_lt hc)]
    simp only [hc, if_true] at hnone ⊢
    obtain ⟨-, h2, -, -, -, -, rts, -, -, h7⟩ :=
      foldlRunRoot_spec (st.roots.drop executed) st
    have hvr : ((st.roots.drop executed).foldl runRoot st).visitedRoots =
        v0 ++ st.roots.map Root.dslName := by
      rw [h2, hinv, List.append_assoc, ← List.map_append, List.take_append_drop]
    have hlen : st.roots.length ≤ ((st.roots.drop executed).foldl runRoot st).roots.length := by
      rw [h7]; simp
    have hinv' : ((st.roots.drop executed).foldl runRoot st).visitedRoots =
        v0 ++ (((st.roots.drop executed).foldl runRoot st).roots.take st.roots.length).map
          Root.dslName := by
      rw [h7, List.take_append_of_le_length (Nat.le_refl _), List.take_length, hvr]
    exact ih st.roots.length _ hlen hinv' hnone

/-- Claim C1: when the phase-1 loop finishes normally, every root present
at the end — including every root registered by a deferred initializer
while the phase was running — has been visited (its expression sets run
through `runSet`) within that same loop, in order; and whenever the loop
gives up instead, the error is the "too many generated roots" one,
produced after the iteration cap of 100 is exceeded at root
granularity. -/
theorem c1_reentrant_roots (st st' : EvalState) (res : Option String)
    (h : phase1Loop 100 0 st = (st', res)) :
    (res = none → st'.visitedRoots = st.visitedRoots ++ st'.roots.map Root.dslName) ∧
    (∀ m, res = some m → m = "too many generated roots, infinite loop?") := by
  have e1 : (phase1Loop 100 0 st).2 = res := by rw [h]
  have e2 : (phase1Loop 100 0 st).1 = st' := by rw [h]
  constructor
  · intro hn
    have hv := phase1Loop_none_visits 100 st.visitedRoots 0 st (Nat.zero_le _)
      (by simp) (by rw [e1, hn])
    rw [e2] at hv
    exact hv
  · intro m hm
    exact phase1Loop_some 100 0 st m (by rw [e1, hm])

/-- A root whose single expression registers a brand-new root (carrying
its own finalizable expression) while phase 1 is running. -/
def rootN : Root := .mk "N" [] [[.mk "ne" none none true]]

def rootR : Root := .mk "R" [] [[.mk "regExp" (some [.registerRoot rootN]) none false]]

/-- Claim C1 witness: starting from the single root `R`, whose expression
registers root `N` during execution, the phase-1 loop terminates without
error having visited both `R` and the dynamically registered `N`. -/
theorem c1_witness :
    (phase1Loop 100 0 { roots := [rootR] }).2 = none ∧
    (phase1Loop 100 0 { roots := [rootR] }).1.visitedRoots =
      [] ++ (phase1Loop 100 0 { roots := [rootR] }).1.roots.map Root.dslName ∧
    (phase1Loop 100 0 { roots := [rootR] }).1.visitedRoots = ["R", "N"] :=
  ⟨rfl,
   (c1_reentrant_roots { roots := [rootR] } (phase1Loop 100 0 { roots := [rootR] }).1
      (phase1Loop 100 0 { roots := [rootR] }).2 rfl).1 rfl,
   rfl⟩

/-- Per-expression contribution of a `Validate` result to the per-set
batch: a batch-shaped failure contributes its own `Errors` (flattening),
a plain failure contributes itself. -/
def contribErrs (d : Expr) : List VErr :=
  match d.validator with
  | some (some (.batch es _)) => es
  | some (some e) => [e]
  | _ => []

/-- Per-expression contribution to the batch's `Exprs`: the batch's own
attributions for a batch-shaped failure, the validated expression itself
for a plain failure. -/
def contribExprs (d : Expr) : List Expr :=
  match d.validator with
  | some (some (.batch _ xs)) => xs
  | some (some _) => [d]
  | _ => []

/-- Which expressions have `Validate` invoked: every expression with the
`Validator` capability. -/
def contribName (d : Expr) : List String :=
  match d.validator with
  | none => []
  | some _ => [d.name]

theorem validateFold_spec (set : List Expr) (v : ValidationErrors) (l : List String) :
    (set.foldl validateStep (v, l)).1.Errors = v.Errors ++ set.flatMap contribErrs ∧
    (set.foldl validateStep (v, l)).1.Exprs = v.Exprs ++ set.flatMap contribExprs ∧
    (set.foldl validateStep (v, l)).2 = l ++ set.flatMap contribName := by
  induction set generalizing v l with
  | nil => simp
  | cons d rest ih =>
    simp only [List.foldl_cons, List.flatMap_cons]
    cases hv : d.validator with
    | none =>
      obtain ⟨h1, h2, h3⟩ := ih v l
      simp only [validateStep, hv]
      simp [h1, h2, h3, contribErrs, contribExprs, contribName, hv]
    | some res =>
      cases res with
      | none =>
        obtain ⟨h1, h2, h3⟩ := ih v (l ++ [d.name])
        simp only [validateStep, hv]
        simp [h1, h2, h3, contribErrs, contribExprs, contribName, hv]
      | some err =>
        obtain ⟨h1, h2, h3⟩ := ih (v.AddError d err) (l ++ [d.name])
        simp only [validateStep, hv]
        cases err with
        | plain m =>
          simp only [ValidationErrors.AddError] at h1 h2 h3
          simp [ValidationErrors.AddError, h1, h2, h3, contribErrs, contribExprs,
            contribName, hv]
        | batch es xs =>
          simp only [ValidationErrors.AddError] at h1 h2 h3
          simp [ValidationErrors.AddError, h1, h2, h3, contribErrs, contribExprs,
            contribName, hv]

theorem validateSet_spec (set : List Expr) (st : EvalState) :
    (validateSet st set).stack = st.stack ∧
    (validateSet st set).visitedRoots = st.visitedRoots ∧
    (validateSet st set).visitedExprs = st.visitedExprs ∧
    (validateSet st set).roots = st.roots ∧
    (validateSet st set).finalized = st.finalized ∧
    (validateSet st set).validated = st.validated ++ set.flatMap contribName ∧
    ∃ er, (validateSet st set).errors = st.errors ++ er := by
  obtain ⟨h1, h2, h3⟩ := validateFold_spec set {} st.validated
  by_cases hq : (set.foldl validateStep ({}, st.validated)).1.Errors.length > 0 <;>
    simp only [validateSet] <;> [rw [if_pos hq]; rw [if_neg hq]]
  · exact ⟨rfl, rfl, rfl, rfl, rfl, by rw [h3],
      [⟨VErr.batch (set.foldl validateStep ({}, st.validated)).1.Errors
        (set.foldl validateStep ({}, st.validated)).1.Exprs⟩], rfl⟩
  · exact ⟨rfl, rfl, rfl, rfl, rfl, by rw [h3], [], by simp⟩

theorem foldlValidateSet_spec (sets : List (List Expr)) (st : EvalState) :
    (sets.foldl validateSet st).stack = st.stack ∧
    (sets.foldl validateSet st).visitedRoots = st.visitedRoots ∧
    (sets.foldl validateSet st).visitedExprs = st.visitedExprs ∧
    (sets.foldl validateSet st).roots = st.roots ∧
    (sets.foldl validateSet st).finalized = st.finalized ∧
    ∃ vd er, (sets.foldl validateSet st).validated = st.validated ++ vd ∧
      (sets.foldl validateSet st).errors = st.errors ++ er := by
  induction sets generalizing st with
  | nil => exact ⟨rfl, rfl, rfl, rfl, rfl, [], [], by simp, by simp⟩
  | cons set rest ih =>
    obtain ⟨h1, h2, h3, h4, h5, h6, er, h7⟩ := validateSet_spec set st
    obtain ⟨g1, g2, g3, g4, g5, vd', er', g6, g7⟩ := ih (validateSet st set)
    simp only [List.foldl_cons]
    refine ⟨by rw [g1, h1], by rw [g2, h2], by rw [g3, h3], by rw [g4, h4],
      by rw [g5, h5], set.flatMap contribName ++ vd', er ++ er', ?_, ?_⟩
    · rw [g6, h6]; simp
    · rw [g7, h7]; simp

theorem foldlValidateRoot_spec (rts : List Root) (st : EvalState) :
    (rts.foldl validateRoot st).stack = st.stack ∧
    (rts.foldl validateRoot st).visitedRoots = st.visitedRoots ∧
    (rts.foldl validateRoot st).visitedExprs = st.visitedExprs ∧
    (rts.foldl validateRoot st).roots = st.roots ∧
    (rts.foldl validateRoot st).finalized = st.finalized ∧
    ∃ vd er, (rts.foldl validateRoot st).validated = st.validated ++ vd ∧
      (rts.foldl validateRoot st).errors = st.errors ++ er := by
  induction rts generalizing st with
  | nil => exact ⟨rfl, rfl, rfl, rfl, rfl, [], [], by simp, by simp⟩
  | cons r rest ih =>
    obtain ⟨h1, h2, h3, h4, h5, vd, er, h6, h7⟩ := foldlValidateSet_spec r.sets st
    obtain ⟨g1, g2, g3, g4, g5, vd', er', g6, g7⟩ := ih (validateRoot st r)
    simp only [List.foldl_cons]
    refine ⟨by rw [g1]; exact h1, by rw [g2]; exact h2, by rw [g3]; exact h3,
      by rw [g4]; exact h4, by rw [g5]; exact h5, vd ++ vd', er ++ er', ?_, ?_⟩
    · rw [g6, show (validateRoot st r).validated = st.validated ++ vd from h6]; simp
    · rw [g7, show (validateRoot st r).errors = st.errors ++ er from h7]; simp

theorem RunDSL_phase1_none (st0 : EvalState) (sorted : List Root) (st1 : EvalState)
    (hs : SortRoots st0.roots = .ok sorted) (hne : ¬ sorted.length = 0)
    (hp : phase1Loop 100 0 { st0 with roots := sorted } = (st1, none)) :
    RunDSL st0 =
      if st1.errors.length > 0 then (st1, some (.multi st1.errors))
      else
        if (st1.roots.foldl validateRoot st1).errors.length > 0 then
          (st1.roots.foldl validateRoot st1,
            some (.multi (st1.roots.foldl validateRoot st1).errors))
        else
          ((st1.roots.foldl validateRoot st1).roots.foldl finalizeRoot
            (st1.roots.foldl validateRoot st1), none) := by
  simp only [RunDSL, hs, if_neg hne, hp]

theorem RunDSL_phase1_fatal (st0 : EvalState) (sorted : List Root) (st1 : EvalState)
    (m : String) (hs : SortRoots st0.roots = .ok sorted) (hne : ¬ sorted.length = 0)
    (hp : phase1Loop 100 0 { st0 with roots := sorted } = (st1, some m)) :
    RunDSL st0 = (st1, some (.fatal m)) := by
  simp only [RunDSL, hs, if_neg hne, hp]

/-- Claim C3: after a successful sort of a non-empty root list and a
phase-1 loop that finishes normally, (a) if any error was recorded by the
end of phase 1, the run returns exactly the recorded error collection
(none lost, none duplicated) and neither `Validate` nor `Finalize` is
ever invoked; (b) if phase 1 is clean but validation records errors, the
run returns exactly those records and `Finalize` is never invoked. -/
theorem c3_phase_gating (st0 : EvalState) (sorted : List Root) (st1 : EvalState)
    (hs : SortRoots st0.roots = .ok sorted) (hne : ¬ sorted.length = 0)
    (hp : phase1Loop 100 0 { st0 with roots := sorted } = (st1, none)) :
    (st1.errors ≠ [] →
      RunDSL st0 = (st1, some (.multi st1.errors)) ∧
      st1.validated = st0.validated ∧ st1.finalized = st0.finalized) ∧
    (st1.errors = [] → ∀ st2, st1.roots.foldl validateRoot st1 = st2 →
      st2.errors ≠ [] →
      RunDSL st0 = (st2, some (.multi st2.errors)) ∧
      st2.finalized = st0.finalized) := by
  have hR := RunDSL_phase1_none st0 sorted st1 hs hne hp
  obtain ⟨-, hval, hfin, -⟩ := phase1Loop_pres 100 0 { st0 with roots := sorted }
  rw [hp] at hval hfin
  constructor
  · intro hne1
    have hlen : st1.errors.length > 0 := List.length_pos.mpr hne1
    rw [hR, if_pos hlen]
    exact ⟨rfl, hval, hfin⟩
  · intro he1 st2 hst2 hne2
    have hlen1 : ¬ st1.errors.length > 0 := by simp [he1]
    have hlen2 : st2.errors.length > 0 := List.length_pos.mpr hne2
    rw [hR, if_neg hlen1, hst2, if_pos hlen2]
    obtain ⟨-, -, -, -, hf2, -, -, -, -⟩ := foldlValidateRoot_spec st1.roots st1
    rw [hst2] at hf2
    exact ⟨rfl, hf2.trans hfin⟩

def badE : Expr := .mk "b" (some [.reportError "boom"]) none false

def valE : Expr := .mk "v" none (some (some (.plain "invalid"))) true

def rootB : Root := .mk "RB" [] [[badE, valE]]

/-- Claim C3 witness: a root whose first expression reports `"boom"`
during phase 1 while its second has a validator and a finalizer: the run
returns exactly the one recorded error, and no `Validate` or `Finalize`
is ever invoked. -/
theorem c3_witness :
    RunDSL { roots := [rootB] } =
      ((phase1Loop 100 0 { roots := [rootB] }).1,
        some (.multi (phase1Loop 100 0 { roots := [rootB] }).1.errors)) ∧
    (phase1Loop 100 0 { roots := [rootB] }).1.validated = [] ∧
    (phase1Loop 100 0 { roots := [rootB] }).1.finalized = [] ∧
    (phase1Loop 100 0 { roots := [rootB] }).1.errors = [⟨VErr.plain "boom in b"⟩] := by
  have h := (c3_phase_gating { roots := [rootB] } [rootB]
      (phase1Loop 100 0 { roots := [rootB] }).1 rfl (by decide) rfl).1
      (by
        rw [show (phase1Loop 100 0 ({ roots := [rootB] } : EvalState)).1.errors =
          [⟨VErr.plain "boom in b"⟩] from rfl]
        exact List.cons_ne_nil _ _)
  exact ⟨h.1, h.2.1, h.2.2, rfl⟩

/-- Claim C2 (amended): at root granularity the cap error is fatal — the
phase-1 loop's error is the "too many generated roots" one, `RunDSL`
returns it directly and neither `Validate` nor `Finalize` is ever
invoked; at set granularity the loop terminates with the "too many
generated expressions" error as `runSet`'s return value, but (see the
counterexample) that value is returned to the set iterator, whose
interface gives it no path back to `RunDSL`. -/
theorem c2_cap_fatality (st0 : EvalState) (sorted : List Root) (st1 : EvalState)
    (m : String) (hs : SortRoots st0.roots = .ok sorted) (hne : ¬ sorted.length = 0)
    (hp : phase1Loop 100 0 { st0 with roots := sorted } = (st1, some m)) :
    RunDSL st0 = (st1, some (.fatal m)) ∧
    m = "too many generated roots, infinite loop?" ∧
    st1.validated = st0.validated ∧
    st1.finalized = st0.finalized ∧
    (∀ fuel executed st cs m', (runSetLoop fuel executed st cs).2 = some m' →
      m' = "too many generated expressions, infinite loop?") := by
  have hR := RunDSL_phase1_fatal st0 sorted st1 m hs hne hp
  obtain ⟨-, hval, hfin, -⟩ := phase1Loop_pres 100 0 { st0 with roots := sorted }
  rw [hp] at hval hfin
  exact ⟨hR, phase1Loop_some 100 0 { st0 with roots := sorted } m (by rw [hp]), hval, hfin,
    fun fuel executed st cs m' h => runSetLoop_some fuel executed st cs m' h⟩

/-- A root registration chain: executing `chainRoot (n+1)` registers
`chainRoot n`, so phase 1 discovers one new root per iteration. -/
def chainRoot : Nat → Root
  | 0 => .mk "r0" [] [[]]
  | n + 1 => .mk ("r" ++ toString (n + 1)) []
      [[.mk "g" (some [.registerRoot (chainRoot n)]) none false]]

/-- `runSetLoop` returns immediately once `executed` has reached the set
length. -/
theorem runSetLoop_done (fuel executed : Nat) (st : EvalState) (cs : List Expr)
    (h : ¬ executed < cs.length) : runSetLoop fuel executed st cs = ((st, cs), none) := by
  cases fuel with
  | zero => rw [runSetLoop_zero, if_neg h]
  | succ fuel => rw [runSetLoop_succ, if_neg h]

/-- `phase1Loop` returns immediately once `executed` has reached the
root count. -/
theorem phase1Loop_done (fuel executed : Nat) (st : EvalState)
    (h : ¬ executed < st.roots.length) : phase1Loop fuel executed st = (st, none) := by
  cases fuel with
  | zero => rw [phase1Loop_zero, if_neg h]
  | succ fuel => rw [phase1Loop_succ, if_neg h]

theorem chainExpr_runExprs_zero (st : EvalState) (cs : List Expr) :
    (runExprs st cs [chainExpr 0]).1.roots = st.roots ∧
    (runExprs st cs [chainExpr 0]).1.errors = st.errors ∧
    (runExprs st cs [chainExpr 0]).2 = cs :=
  ⟨rfl, rfl, rfl⟩

theorem chainExpr_runExprs_succ (m : Nat) (st : EvalState) (cs : List Expr) :
    (runExprs st cs [chainExpr (m + 1)]).1.roots = st.roots ∧
    (runExprs st cs [chainExpr (m + 1)]).1.errors = st.errors ∧
    (runExprs st cs [chainExpr (m + 1)]).2 = cs ++ [chainExpr m] :=
  ⟨rfl, rfl, rfl⟩

/-- Behavior of the set loop on a `chainExpr` tail: the chain appends one
expression per iteration, never registers roots and never reports
errors, and any fuel not exceeding the remaining chain depth runs out,
producing the expression-cap error. -/
theorem runSetLoop_chain (f : Nat) : ∀ (e n : Nat) (st : EvalState) (cs : List Expr),
    cs.length = e + 1 → cs.drop e = [chainExpr n] →
    (runSetLoop f e st cs).1.1.roots = st.roots ∧
    (runSetLoop f e st cs).1.1.errors = st.errors ∧
    (f ≤ n → (runSetLoop f e st cs).2 =
      some "too many generated expressions, infinite loop?") := by
  induction f with
  | zero =>
    intro e n st cs hlen hdrop
    rw [runSetLoop_zero, if_pos (by omega), hdrop]
    cases n with
    | zero =>
      obtain ⟨h1, h2, -⟩ := chainExpr_runExprs_zero st cs
      exact ⟨h1, h2, fun _ => rfl⟩
    | succ m =>
      obtain ⟨h1, h2, -⟩ := chainExpr_runExprs_succ m st cs
      exact ⟨h1, h2, fun _ => rfl⟩
  | succ f ih =>
    intro e n st cs hlen hdrop
    rw [runSetLoop_succ, if_pos (by omega), hdrop]
    cases n with
    | zero =>
      obtain ⟨h1, h2, h3⟩ := chainExpr_runExprs_zero st cs
      rw [runSetLoop_done f cs.length _ _ (by rw [h3]; omega)]
      exact ⟨h1, h2, fun hf => absurd hf (by omega)⟩
    | succ m =>
      obtain ⟨h1, h2, h3⟩ := chainExpr_runExprs_succ m st cs
      obtain ⟨g1, g2, g3⟩ := ih cs.length m (runExprs st cs [chainExpr (m + 1)]).1
        (runExprs st cs [chainExpr (m + 1)]).2
        (by rw [h3]; simp [hlen])
        (by rw [h3, hlen]; have := List.drop_left cs [chainExpr m]; rw [hlen] at this; exact this)
      exact ⟨g1.trans h1, g2.trans h2, fun hf => g3 (by omega)⟩

/-- Executing one root of the registration chain appends the next root of
the chain to the registry (and changes nothing else in the registry). -/
theorem chainRoot_runRoot (m : Nat) (st : EvalState) :
    (runRoot st (chainRoot (m + 1))).roots = st.roots ++ [chainRoot m] := rfl

/-- Behavior of the phase-1 loop on a `chainRoot` tail: each iteration
registers one more root, so fuel not exceeding the remaining chain depth
runs out, producing the root-cap error. -/
theorem phase1Loop_chain (f : Nat) : ∀ (e n : Nat) (st : EvalState),
    st.roots.length = e + 1 → st.roots.drop e = [chainRoot n] → f ≤ n →
    (phase1Loop f e st).2 = some "too many generated roots, infinite loop?" := by
  induction f with
  | zero =>
    intro e n st hlen hdrop _
    rw [phase1Loop_zero, if_pos (by omega)]
  | succ f ih =>
    intro e n st hlen hdrop hfn
    obtain ⟨m, rfl⟩ : ∃ m, n = m + 1 := ⟨n - 1, by omega⟩
    rw [phase1Loop_succ, if_pos (by omega), hdrop]
    apply ih st.roots.length m
    · show (List.foldl runRoot st [chainRoot (m + 1)]).roots.length = st.roots.length + 1
      rw [show List.foldl runRoot st [chainRoot (m + 1)] = runRoot st (chainRoot (m + 1))
        from rfl, chainRoot_runRoot]
      simp
    · show (List.foldl runRoot st [chainRoot (m + 1)]).roots.drop st.roots.length =
        [chainRoot m]
      rw [show List.foldl runRoot st [chainRoot (m + 1)] = runRoot st (chainRoot (m + 1))
        from rfl, chainRoot_runRoot]
      exact List.drop_left st.roots [chainRoot m]
    · omega

/-- Claim C2 witness (root granularity): a registration chain of depth
100 makes the phase-1 loop run past its cap; `RunDSL` returns the fatal
"too many generated roots" error and nothing is finalized. -/
theorem c2_witness :
    RunDSL { roots := [chainRoot 100] } =
      ((phase1Loop 100 0 { roots := [chainRoot 100] }).1,
        some (.fatal "too many generated roots, infinite loop?")) ∧
    (phase1Loop 100 0 { roots := [chainRoot 100] }).1.finalized = [] := by
  have herr := phase1Loop_chain 100 0 100 { roots := [chainRoot 100] } rfl rfl
    (Nat.le_refl 100)
  have hp : phase1Loop 100 0 { roots := [chainRoot 100] } =
      ((phase1Loop 100 0 { roots := [chainRoot 100] }).1,
        some "too many generated roots, infinite loop?") := by
    rw [← herr]
  have h := c2_cap_fatality { roots := [chainRoot 100] } [chainRoot 100]
    (phase1Loop 100 0 { roots := [chainRoot 100] }).1
    "too many generated roots, infinite loop?" rfl (by decide) hp
  exact ⟨h.1, h.2.2.2.1⟩

def capRoot : Root := .mk "R" [] [[chainExpr 100]]

/-- Claim C2 counterexample (set granularity): in the run over the single
root `R` whose only set starts as `[chainExpr 100]`, the engine's own
`runSet` invocation (reached as `runRoot` folds over `R`'s sets, shown by
the second conjunct) trips the expression cap and returns the "too many
generated expressions" error — yet `RunDSL` for that very run returns no
error at all: the run is not aborted and the cap error is not the value
returned by the entry point. -/
theorem runSet_eq (st : EvalState) (cs : List Expr) :
    runSet st cs = runSetLoop 100 0 st cs := rfl

theorem capLen : ([chainExpr 100] : List Expr).length = 0 + 1 := rfl

theorem capDrop : ([chainExpr 100] : List Expr).drop 0 = [chainExpr 100] := rfl

theorem phase1Loop_100 (st : EvalState) :
    phase1Loop 100 0 st =
      if 0 < st.roots.length then
        phase1Loop 99 st.roots.length ((st.roots.drop 0).foldl runRoot st)
      else (st, none) :=
  phase1Loop_succ 99 0 st

/-- Validating the root `R` changes nothing: its only expression
(`chainExpr 100`) has no `Validator` capability. -/
theorem validateRoot_capRoot (S : EvalState) : validateRoot S capRoot = S := rfl

/-- Finalizing the root `R` changes nothing: its only expression has no
`Finalizer` capability. -/
theorem finalizeRoot_capRoot (S : EvalState) : finalizeRoot S capRoot = S := rfl

theorem c2_counterexample :
    (runSet { roots := [capRoot], visitedRoots := ["R"] } [chainExpr 100]).2 =
      some "too many generated expressions, infinite loop?" ∧
    runRoot { roots := [capRoot] } capRoot =
      (runSet { roots := [capRoot], visitedRoots := ["R"] } [chainExpr 100]).1.1 ∧
    (RunDSL { roots := [capRoot] }).2 = none := by
  obtain ⟨hroots, herrs, hsome⟩ := runSetLoop_chain 100 0 100
    { roots := [capRoot], visitedRoots := ["R"] } [chainExpr 100] capLen capDrop
  have hroots1 : (runSet { roots := [capRoot], visitedRoots := ["R"] }
      [chainExpr 100]).1.1.roots = [capRoot] := by
    rw [runSet_eq, hroots]
  have herrs1 : (runSet { roots := [capRoot], visitedRoots := ["R"] }
      [chainExpr 100]).1.1.errors = [] := by
    rw [runSet_eq, herrs]
  refine ⟨?_, ?_, ?_⟩
  · rw [runSet_eq]
    exact hsome (Nat.le_refl 100)
  · simp only [runRoot, runSet, capRoot, Root.sets, Root.dslName, List.foldl_cons,
      List.foldl_nil, List.nil_append]
  · have hphase : phase1Loop 100 0 { roots := [capRoot] } =
        ((runSet { roots := [capRoot], visitedRoots := ["R"] } [chainExpr 100]).1.1,
          none) := by
      rw [phase1Loop_100, if_pos (by decide)]
      rw [show (({ roots := [capRoot] } : EvalState).roots) = [capRoot] from rfl,
        List.drop_zero]
      have hfold : ([capRoot].foldl runRoot { roots := [capRoot] }) =
          (runSet { roots := [capRoot], visitedRoots := ["R"] } [chainExpr 100]).1.1 := by
        simp only [runRoot, runSet, capRoot, Root.sets, Root.dslName, List.foldl_cons,
          List.foldl_nil, List.nil_append]
      rw [hfold, show ([capRoot] : List Root).length = 1 from rfl]
      exact phase1Loop_done 99 1 _ (by rw [hroots1]; decide)
    have hval1 : (runSet { roots := [capRoot], visitedRoots := ["R"] }
        [chainExpr 100]).1.1.roots.foldl validateRoot
        (runSet { roots := [capRoot], visitedRoots := ["R"] } [chainExpr 100]).1.1 =
        (runSet { roots := [capRoot], visitedRoots := ["R"] } [chainExpr 100]).1.1 := by
      rw [hroots1]
      simp only [List.foldl_cons, List.foldl_nil]
      exact validateRoot_capRoot _
    have hR := RunDSL_phase1_none { roots := [capRoot] } [capRoot]
      (runSet { roots := [capRoot], visitedRoots := ["R"] } [chainExpr 100]).1.1
      rfl (by decide) hphase
    rw [hR, if_neg (by rw [herrs1]; decide), if_neg (by rw [hval1, herrs1]; decide)]

/-! ### Claims C7, C8, C9, C10 -/

/-- Claim C7 counterexample: a deferred initializer for the expression
named `foo` reporting `"bad value"` records the message
`"bad value in foo"`, not a line matching `"foo: bad value"`; with no
expression being evaluated the message is `"bad value (top level)"`, not
`"top-level: bad value"`; and for a current expression with an empty name
the message is recorded without any suffix at all. -/
theorem c7_counterexample :
    (ReportError "bad value" { stack := [Expr.mk "foo" none none false] }).errors =
      [⟨VErr.plain "bad value in foo"⟩] ∧
    "bad value in foo" ≠ "foo: bad value" ∧
    (ReportError "bad value" ({} : EvalState)).errors =
      [⟨VErr.plain "bad value (top level)"⟩] ∧
    "bad value (top level)" ≠ "top-level: bad value" ∧
    (ReportError "bad value" { stack := [Expr.mk "" none none false] }).errors =
      [⟨VErr.plain "bad value"⟩] :=
  ⟨rfl, by decide, rfl, by decide, rfl⟩

/-- Claim C7 (amended): every error reported through `ReportError` is
recorded with the suffix `" in <name>"` naming the currently-evaluating
expression when there is one with a non-empty name, with the suffix
`" (top level)"` when no expression is being evaluated, and with no
suffix when the current expression's name is empty. -/
theorem c7_report_error_suffix (fm : String) (st : EvalState) :
    (stackCurrent st.stack = none →
      (ReportError fm st).errors = st.errors ++ [⟨VErr.plain (fm ++ " (top level)")⟩]) ∧
    (∀ cur, stackCurrent st.stack = some cur → cur.name ≠ "" →
      (ReportError fm st).errors =
        st.errors ++ [⟨VErr.plain (fm ++ (" in " ++ cur.name))⟩]) ∧
    (∀ cur, stackCurrent st.stack = some cur → cur.name = "" →
      (ReportError fm st).errors = st.errors ++ [⟨VErr.plain (fm ++ "")⟩]) := by
  refine ⟨fun h => ?_, fun cur h hn => ?_, fun cur h hn => ?_⟩
  · simp [ReportError, reportSuffix, h]
  · simp [ReportError, reportSuffix, h, hn]
  · simp [ReportError, reportSuffix, h, hn]

/-- Claim C7 witness for the amended theorem, at the concrete inputs of
the counterexample. -/
theorem c7_witness :
    (ReportError "bad value" { stack := [Expr.mk "foo" none none false] }).errors =
      [⟨VErr.plain ("bad value" ++ (" in " ++ "foo"))⟩] ∧
    (ReportError "bad value" ({} : EvalState)).errors =
      [⟨VErr.plain ("bad value" ++ " (top level)")⟩] :=
  ⟨(c7_report_error_suffix "bad value" { stack := [Expr.mk "foo" none none false] }).2.1
      (Expr.mk "foo" none none false) rfl (by decide),
   (c7_report_error_suffix "bad value" ({} : EvalState)).1 rfl⟩

/-- Claim C8: `Current` returns the `Top` sentinel (whose `EvalName` is
`"top-level"`) exactly when the stack is empty; otherwise it returns the
most recently pushed, not-yet-popped expression; reporting an error does
not change it, and after a nested `Execute` (which may itself have
reported errors) it is restored. -/
theorem c8_current (st : EvalState) (e : Expr) (fm : String) :
    (st.stack = [] → Current st = Top ∧ Top.name = "top-level") ∧
    (Current { st with stack := st.stack ++ [e] } = e) ∧
    (Current (ReportError fm st) = Current st) ∧
    (∀ acts d cs, Current ((Execute (some acts) d st cs).1.1) = Current st) := by
  refine ⟨fun h => ⟨?_, rfl⟩, ?_, ?_, fun acts d cs => ?_⟩
  · simp [Current, stackCurrent, h]
  · simp [Current, stackCurrent, List.getLast?_concat]
  · simp [Current, ReportError, stackCurrent]
  · obtain ⟨_, _, _, hs, _⟩ := Execute_spec acts d st cs
    simp [Current, stackCurrent, hs]

/-- Claim C8 witness: at a concrete two-deep stack, `Current` is the
inner expression, also after a nested `Execute` whose DSL reports an
error, and the empty stack yields `Top`. -/
theorem c8_witness :
    Current ({} : EvalState) = Top ∧
    Current { stack := [Expr.mk "outer" none none false, Expr.mk "inner" none none false] } =
      Expr.mk "inner" none none false :=
  ⟨((c8_current {} (Expr.mk "x" none none false) "m").1 rfl).1, by
    have h :=
      (c8_current { stack := [Expr.mk "outer" none none false] }
        (Expr.mk "inner" none none false) "m").2.1
    simpa using h⟩

/-- Claim C9: `Execute` with a non-nil DSL pushes the owning expression,
runs the DSL on the pushed stack, pops exactly once afterwards (restoring
the original stack, also when the DSL reported errors), and returns true
iff no new error was recorded during that invocation, judged by comparing
the error count before and after. -/
theorem c9_execute (acts : List Action) (d : Expr) (st : EvalState) (cs : List Expr)
    (st' : EvalState) (cs' : List Expr) (ok : Bool)
    (h : Execute (some acts) d st cs = ((st', cs'), ok)) :
    (∃ mid csMid,
      runActions { st with stack := st.stack ++ [d] } cs acts = (mid, csMid) ∧
      mid.stack = st.stack ++ [d] ∧
      st' = { mid with stack := mid.stack.dropLast } ∧ cs' = csMid) ∧
    st'.stack = st.stack ∧
    (∃ new, st'.errors = st.errors ++ new ∧ (ok = true ↔ new = [])) := by
  obtain ⟨er, rs, ce, hs, he, _, _, _, _, _, _, hok⟩ := Execute_spec acts d st cs
  obtain ⟨hstack, -⟩ := runActions_pres acts { st with stack := st.stack ++ [d] } cs
  refine ⟨⟨(runActions { st with stack := st.stack ++ [d] } cs acts).1,
           (runActions { st with stack := st.stack ++ [d] } cs acts).2, rfl, ?_, ?_, ?_⟩,
         ?_, er, ?_, ?_⟩
  · simpa using hstack
  · have : st' = (Execute (some acts) d st cs).1.1 := by rw [h]
    rw [this]; simp [Execute]
  · have : cs' = (Execute (some acts) d st cs).1.2 := by rw [h]
    rw [this]; simp [Execute]
  · have : st' = (Execute (some acts) d st cs).1.1 := by rw [h]
    rw [this, hs]
  · have : st' = (Execute (some acts) d st cs).1.1 := by rw [h]
    rw [this, he]
  · have : ok = (Execute (some acts) d st cs).2 := by rw [h]
    rw [this]; exact hok

/-- Claim C9 witness: a DSL that reports one error runs on the pushed
stack, the stack is restored, and the result is false (one new error). -/
theorem c9_witness :
    ∃ st' cs' ok,
      Execute (some [Action.reportError "boom"]) (Expr.mk "e" none none false)
        ({} : EvalState) [] = ((st', cs'), ok) ∧
      st'.stack = [] ∧ ok = false := by
  obtain ⟨-, hstack, new, herr, hiff⟩ :=
    c9_execute [Action.reportError "boom"] (Expr.mk "e" none none false) {} []
      (Execute (some [Action.reportError "boom"]) (Expr.mk "e" none none false) {} []).1.1
      (Execute (some [Action.reportError "boom"]) (Expr.mk "e" none none false) {} []).1.2
      (Execute (some [Action.reportError "boom"]) (Expr.mk "e" none none false) {} []).2
      rfl
  refine ⟨_, _, _, rfl, hstack, ?_⟩
  have hnew : new = [⟨VErr.plain ("boom" ++ (" in " ++ "e"))⟩] := by
    have := herr
    simp only [show (({} : EvalState)).errors = [] from rfl, List.nil_append] at this
    rw [show (Execute (some [Action.reportError "boom"]) (Expr.mk "e" none none false)
        ({} : EvalState) []).1.1.errors = [⟨VErr.plain ("boom" ++ (" in " ++ "e"))⟩] from rfl]
      at this
    exact this.symm
  cases hok : (Execute (some [Action.reportError "boom"]) (Expr.mk "e" none none false)
      ({} : EvalState) []).2
  · rfl
  · exact absurd (hnew ▸ hiff.mp hok) (by simp)

/-- Claim C10: `AddError` (both the plain and the flattening path), `Add`
and `Merge` each preserve the invariant that the `Errors` and `Exprs`
lists of a `ValidationErrors` batch have the same length. -/
theorem c10_parallel_lists (v w : ValidationErrors) (d : Expr) (e : VErr) (msg : String)
    (hv : v.Errors.length = v.Exprs.length)
    (he : ∀ es xs, e = .batch es xs → es.length = xs.length)
    (hw : w.Errors.length = w.Exprs.length) :
    (v.AddError d e).Errors.length = (v.AddError d e).Exprs.length ∧
    (v.Add d msg).Errors.length = (v.Add d msg).Exprs.length ∧
    (v.Merge (some w)).Errors.length = (v.Merge (some w)).Exprs.length ∧
    (v.Merge none).Errors.length = (v.Merge none).Exprs.length := by
  refine ⟨?_, ?_, ?_, ?_⟩
  · cases e with
    | plain m => simp [ValidationErrors.AddError, hv]
    | batch es xs => simp [ValidationErrors.AddError, hv, he es xs rfl]
  · simp [ValidationErrors.Add, ValidationErrors.AddError, hv]
  · simp [ValidationErrors.Merge, hv, hw]
  · simp [ValidationErrors.Merge, hv]

/-- Claim C10 witness: the preservation facts at a concrete batch, a
concrete batch-shaped error (exercising the flattening path) and a
concrete merge argument. -/
theorem c10_witness :
    (ValidationErrors.AddError ⟨[VErr.plain "a"], [Expr.mk "x" none none false]⟩
      (Expr.mk "y" none none false)
      (VErr.batch [VErr.plain "b", VErr.plain "c"]
        [Expr.mk "y" none none false, Expr.mk "z" none none false])).Errors.length =
    (ValidationErrors.AddError ⟨[VErr.plain "a"], [Expr.mk "x" none none false]⟩
      (Expr.mk "y" none none false)
      (VErr.batch [VErr.plain "b", VErr.plain "c"]
        [Expr.mk "y" none none false, Expr.mk "z" none none false])).Exprs.length :=
  (c10_parallel_lists ⟨[VErr.plain "a"], [Expr.mk "x" none none false]⟩
    ⟨[VErr.plain "w"], [Expr.mk "w" none none false]⟩
    (Expr.mk "y" none none false)
    (VErr.batch [VErr.plain "b", VErr.plain "c"]
      [Expr.mk "y" none none false, Expr.mk "z" none none false]) "m" rfl
    (by intro es xs h; injection h with h1 h2; rw [← h1, ← h2]; rfl) rfl).1

/-! ### Claim C6 -/

theorem renderLines_append (es1 : List VErr) (xs1 : List Expr) (es2 : List VErr)
    (xs2 : List Expr) (h : es1.length = xs1.length) :
    renderLines (es1 ++ es2) (xs1 ++ xs2) = renderLines es1 xs1 ++ renderLines es2 xs2 := by
  induction es1 generalizing xs1 with
  | nil =>
    cases xs1 with
    | nil => rfl
    | cons x xs => simp at h
  | cons e es ih =>
    cases xs1 with
    | nil => simp at h
    | cons x xs =>
      have hih := ih xs (by simpa using h)
      simp only [List.cons_append, renderLines, List.append_eq, hih]

theorem renderLines_eq_zipWith (es : List VErr) (xs : List Expr) :
    renderLines es xs = List.zipWith (fun x e => x.name ++ ": " ++ e.render) xs es := by
  induction es generalizing xs with
  | nil => cases xs <;> rfl
  | cons e es ih =>
    cases xs with
    | nil => rfl
    | cons x xs => simp only [renderLines, List.zipWith_cons_cons, ih]

theorem contrib_length_eq (e : Expr)
    (hwf : ∀ es xs, e.validator = some (some (.batch es xs)) → es.length = xs.length) :
    (contribErrs e).length = (contribExprs e).length := by
  cases hv : e.validator with
  | none => simp [contribErrs, contribExprs, hv]
  | some res =>
    cases res with
    | none => simp [contribErrs, contribExprs, hv]
    | some err =>
      cases err with
      | plain m => simp [contribErrs, contribExprs, hv]
      | batch es xs => simpa [contribErrs, contribExprs, hv] using hwf es xs (by rw [hv])

theorem flatMap_contrib_length_eq (l : List Expr)
    (h : ∀ e ∈ l, ∀ es xs, e.validator = some (some (.batch es xs)) →
      es.length = xs.length) :
    (l.flatMap contribErrs).length = (l.flatMap contribExprs).length := by
  induction l with
  | nil => rfl
  | cons e rest ih =>
    simp only [List.flatMap_cons, List.length_append]
    rw [contrib_length_eq e (h e (by simp)), ih (fun x hx => h x (by simp [hx]))]

/-- Claim C6 (amended): if an expression `d` in a validated set returns a
batch of `N` failures, all `N` appear in the per-set batch recorded by
`validateSet`, contiguously and in their original order, each attributed
to the expression recorded alongside it in the returned batch (which is
the validated expression exactly when the batch was built against it, but
is whatever the validator recorded in general — see the counterexample);
the aggregate renders one `"<owner-name>: <message>"` line per error in
insertion order, with `d`'s `N` lines contiguous; the whole per-set batch
is recorded as one wrapped error appended to the error collection; and
when every validator failure in the set is plain or a flat batch, the
recorded errors are never themselves batches. -/
theorem c6_batch_validation (st : EvalState) (l1 l2 : List Expr) (d : Expr)
    (es : List VErr) (xs : List Expr)
    (hd : d.validator = some (some (.batch es xs)))
    (hlen : es.length = xs.length)
    (hwf : ∀ e ∈ l1, ∀ es' xs', e.validator = some (some (.batch es' xs')) →
      es'.length = xs'.length) :
    ∃ pre preX post postX,
      pre.length = preX.length ∧
      ((l1 ++ d :: l2).foldl validateStep ({}, st.validated)).1.Errors =
        pre ++ es ++ post ∧
      ((l1 ++ d :: l2).foldl validateStep ({}, st.validated)).1.Exprs =
        preX ++ xs ++ postX ∧
      renderLines (pre ++ es ++ post) (preX ++ xs ++ postX) =
        renderLines pre preX ++
          List.zipWith (fun x e => x.name ++ ": " ++ e.render) xs es ++
          renderLines post postX ∧
      (((l1 ++ d :: l2).foldl validateStep ({}, st.validated)).1.Errors ≠ [] →
        (validateSet st (l1 ++ d :: l2)).errors = st.errors ++
          [⟨VErr.batch ((l1 ++ d :: l2).foldl validateStep ({}, st.validated)).1.Errors
            ((l1 ++ d :: l2).foldl validateStep ({}, st.validated)).1.Exprs⟩]) ∧
      ((∀ e ∈ l1 ++ d :: l2, ∀ b ∈ contribErrs e, b.isBatch = false) →
        ∀ b ∈ ((l1 ++ d :: l2).foldl validateStep ({}, st.validated)).1.Errors,
          b.isBatch = false) := by
  obtain ⟨hE, hX, -⟩ := validateFold_spec (l1 ++ d :: l2) {} st.validated
  have hcE : contribErrs d = es := by simp [contribErrs, hd]
  have hcX : contribExprs d = xs := by simp [contribExprs, hd]
  have hE' : ((l1 ++ d :: l2).foldl validateStep ({}, st.validated)).1.Errors =
      l1.flatMap contribErrs ++ es ++ l2.flatMap contribErrs := by
    rw [hE]
    simp [List.flatMap_append, hcE]
  have hX' : ((l1 ++ d :: l2).foldl validateStep ({}, st.validated)).1.Exprs =
      l1.flatMap contribExprs ++ xs ++ l2.flatMap contribExprs := by
    rw [hX]
    simp [List.flatMap_append, hcX]
  refine ⟨l1.flatMap contribErrs, l1.flatMap contribExprs, l2.flatMap contribErrs,
    l2.flatMap contribExprs, flatMap_contrib_length_eq l1 hwf, hE', hX', ?_, ?_, ?_⟩
  · rw [List.append_assoc, List.append_assoc,
      renderLines_append _ _ _ _ (flatMap_contrib_length_eq l1 hwf),
      renderLines_append _ _ _ _ hlen, renderLines_eq_zipWith es xs,
      List.append_assoc]
  · intro hne
    have hpos : ((l1 ++ d :: l2).foldl validateStep ({}, st.validated)).1.Errors.length > 0 :=
      List.length_pos.mpr hne
    simp only [validateSet]
    rw [if_pos hpos]
  · intro hflat b hb
    rw [hE'] at hb
    rcases List.mem_append.mp hb with hb' | hb'
    · rcases List.mem_append.mp hb' with hb'' | hb''
      · obtain ⟨e, he, hbe⟩ := List.mem_flatMap.mp hb''
        exact hflat e (List.mem_append.mpr (Or.inl he)) b hbe
      · exact hflat d (by simp) b (by rw [hcE]; exact hb'')
    · obtain ⟨e, he, hbe⟩ := List.mem_flatMap.mp hb'
      exact hflat e (by simp [he]) b hbe

def vOwner : Expr := .mk "svc" none none false

def vD : Expr :=
  .mk "svc" none (some (some (.batch [.plain "m1", .plain "m2"] [vOwner, vOwner]))) false

def plainX : Expr := .mk "x" none none false

/-- Claim C6 witness: a validator on `svc` returning a flat batch of two
failures, both attributed to `svc`, in a set that also contains an
expression without a validator. -/
theorem c6_witness :
    ∃ (pre : List VErr) (preX : List Expr) (post : List VErr) (postX : List Expr),
      pre.length = preX.length ∧
      (([plainX] ++ vD :: []).foldl validateStep
        ({}, ({} : EvalState).validated)).1.Errors =
        pre ++ [VErr.plain "m1", VErr.plain "m2"] ++ post ∧
      (([plainX] ++ vD :: []).foldl validateStep
        ({}, ({} : EvalState).validated)).1.Exprs =
        preX ++ [vOwner, vOwner] ++ postX ∧
      renderLines (pre ++ [VErr.plain "m1", VErr.plain "m2"] ++ post)
          (preX ++ [vOwner, vOwner] ++ postX) =
        renderLines pre preX ++
          List.zipWith (fun x e => x.name ++ ": " ++ e.render)
            [vOwner, vOwner] [VErr.plain "m1", VErr.plain "m2"] ++
          renderLines post postX ∧
      ((([plainX] ++ vD :: []).foldl validateStep
          ({}, ({} : EvalState).validated)).1.Errors ≠ [] →
        (validateSet {} ([plainX] ++ vD :: [])).errors = ({} : EvalState).errors ++
          [⟨VErr.batch (([plainX] ++ vD :: []).foldl validateStep
              ({}, ({} : EvalState).validated)).1.Errors
            (([plainX] ++ vD :: []).foldl validateStep
              ({}, ({} : EvalState).validated)).1.Exprs⟩]) ∧
      ((∀ e ∈ [plainX] ++ vD :: [], ∀ b ∈ contribErrs e, b.isBatch = false) →
        ∀ b ∈ (([plainX] ++ vD :: []).foldl validateStep
            ({}, ({} : EvalState).validated)).1.Errors,
          b.isBatch = false) :=
  c6_batch_validation {} [plainX] [] vD [VErr.plain "m1", VErr.plain "m2"] [vOwner, vOwner]
    rfl rfl
    (by
      intro e he es' xs' h
      simp only [List.mem_singleton] at he
      subst he
      simp [plainX, Expr.validator] at h)

def exprOther : Expr := .mk "b" none none false

def exprA : Expr :=
  .mk "a" none (some (some (.batch [.plain "msg"] [exprOther]))) false

/-- Claim C6 counterexample: the validator of the expression named `a`
returns a batch of one failure attributed to the expression named `b`;
the recorded aggregate's single line is `"b: msg"`, not a line carrying
`a`'s qualified name — the failures of a batch are attributed to the
batch's own recorded expressions, not to the validated expression. -/
theorem c6_counterexample :
    (validateSet {} [exprA]).errors = [⟨VErr.batch [.plain "msg"] [exprOther]⟩] ∧
    (VErr.batch [.plain "msg"] [exprOther]).render = "b: msg" ∧
    "b: msg" ≠ "a: msg" :=
  ⟨rfl, rfl, by decide⟩

/-! ### Claim C5 — the root scheduler -/

/-- The earliest-registered root not yet scheduled whose registered
dependencies are all scheduled. -/
def firstReady (roots : List Root) (done : List String) : Option Root :=
  (roots.filter fun r => !(done.contains r.dslName)).find?
    (depsMet (roots.map Root.dslName) done)

/-- `TopoFrom allN done out`: walking `out` in order, every registered
dependency of each root is already scheduled (in `done` or earlier in
`out`). -/
def TopoFrom (allN : List String) : List String → List Root → Prop
  | _, [] => True
  | done, r :: rest =>
    (∀ dep ∈ r.dependsOn, dep ∈ allN → dep ∈ done) ∧
      TopoFrom allN (done ++ [r.dslName]) rest

/-- `GreedyFrom roots done out`: each element of `out` is, at its turn,
the earliest-registered ready root (the stable tie-break of the
scheduler). -/
def GreedyFrom (roots : List Root) : List String → List Root → Prop
  | _, [] => True
  | done, r :: rest =>
    firstReady roots done = some r ∧ GreedyFrom roots (done ++ [r.dslName]) rest

theorem pickFirst_none (allN done : List String) :
    ∀ pending : List Root, pickFirst allN done pending = none →
    ∀ r ∈ pending, depsMet allN done r = false := by
  intro pending
  induction pending with
  | nil => intro _ r hr; simp at hr
  | cons p rest ih =>
    intro h r hr
    by_cases hp : depsMet allN done p
    · simp [pickFirst, hp] at h
    · rw [show pickFirst allN done (p :: rest) =
          (match pickFirst allN done rest with
           | some (q, rest') => some (q, p :: rest')
           | none => none) by simp [pickFirst, hp]] at h
      rcases List.mem_cons.mp hr with rfl | hr'
      · exact Bool.eq_false_iff.mpr hp
      · cases hrest : pickFirst allN done rest with
        | none => exact ih hrest r hr'
        | some q => rw [hrest] at h; simp at h

theorem pickFirst_some (allN done : List String) :
    ∀ (pending : List Root) (r : Root) (rest : List Root),
    pickFirst allN done pending = some (r, rest) →
    ∃ A B, pending = A ++ r :: B ∧ rest = A ++ B ∧
      depsMet allN done r = true ∧ ∀ a ∈ A, depsMet allN done a = false := by
  intro pending
  induction pending with
  | nil => intro r rest h; simp [pickFirst] at h
  | cons p ptail ih =>
    intro r rest h
    by_cases hp : depsMet allN done p
    · rw [show pickFirst allN done (p :: ptail) = some (p, ptail) by
        simp [pickFirst, hp]] at h
      obtain ⟨rfl, rfl⟩ : p = r ∧ ptail = rest := by
        constructor <;> [exact congrArg Prod.fst (Option.some_inj.mp h);
          exact congrArg Prod.snd (Option.some_inj.mp h)]
      exact ⟨[], ptail, rfl, rfl, hp, by simp⟩
    · rw [show pickFirst allN done (p :: ptail) =
          (match pickFirst allN done ptail with
           | some (q, rest') => some (q, p :: rest')
           | none => none) by simp [pickFirst, hp]] at h
      cases htail : pickFirst allN done ptail with
      | none => rw [htail] at h; simp at h
      | some qr =>
        rw [htail] at h
        simp only at h
        obtain ⟨hq, hrest⟩ : qr.1 = r ∧ p :: qr.2 = rest := by
          have := Option.some_inj.mp h
          exact ⟨congrArg Prod.fst this, congrArg Prod.snd this⟩
        obtain ⟨A, B, hAB, hR, hmet, hAf⟩ := ih qr.1 qr.2 (by rw [htail])
        refine ⟨p :: A, B, ?_, ?_, hq ▸ hmet, ?_⟩
        · rw [List.cons_append, hAB, hq]
        · rw [← hrest, List.cons_append, hR]
        · intro a ha
          rcases List.mem_cons.mp ha with rfl | ha'
          · exact Bool.eq_false_iff.mpr hp
          · exact hAf a ha'

theorem find?_skip_false (p : Root → Bool) (r : Root) (B : List Root) :
    ∀ A, (∀ a ∈ A, p a = false) → p r = true →
    List.find? p (A ++ r :: B) = some r := by
  intro A
  induction A with
  | nil =>
    intro _ hr
    rw [List.nil_append]
    exact List.find?_cons_of_pos _ hr
  | cons a A ih =>
    intro hAf hr
    rw [List.cons_append,
      List.find?_cons_of_neg _ (by rw [hAf a (List.mem_cons_self a A)]; simp)]
    exact ih (fun x hx => hAf x (List.mem_cons_of_mem a hx)) hr

theorem pickFirst_find (allN done : List String) (pending : List Root) (r : Root)
    (rest : List Root) (h : pickFirst allN done pending = some (r, rest)) :
    pending.find? (depsMet allN done) = some r := by
  obtain ⟨A, B, hAB, -, hmet, hAf⟩ := pickFirst_some allN done pending r rest h
  subst hAB
  exact find?_skip_false _ r B A hAf hmet

theorem sortLoop_nil (allN : List String) (fuel : Nat) (done : List String)
    (acc : List Root) : sortLoop allN fuel done acc [] = .ok acc := by
  cases fuel <;> rfl

theorem sortLoop_zero_cons (allN done : List String) (acc : List Root) (p : Root)
    (pt : List Root) :
    sortLoop allN 0 done acc (p :: pt) = .error (cycleMsg (p :: pt)) := rfl

theorem sortLoop_succ_cons (allN : List String) (fuel : Nat) (done : List String)
    (acc : List Root) (p : Root) (pt : List Root) :
    sortLoop allN (fuel + 1) done acc (p :: pt) =
      match pickFirst allN done (p :: pt) with
      | none => .error (cycleMsg (p :: pt))
      | some (r, rest) =>
        sortLoop allN fuel (done ++ [r.dslName]) (acc ++ [r]) rest := rfl

/-- `depsMet` read back as a proposition. -/
theorem depsMet_spec (allN done : List String) (r : Root)
    (h : depsMet allN done r = true) :
    ∀ dep ∈ r.dependsOn, dep ∈ allN → dep ∈ done := by
  intro dep hdep hreg
  have := List.all_eq_true.mp h dep hdep
  rcases Bool.or_eq_true_iff.mp this with hc | hc
  · exact List.elem_iff.mp hc
  · exact absurd (List.elem_iff.mpr hreg) (by simpa using hc)

/-- On success, the scheduling loop appends to `acc` an ordering of the
pending roots that is both a permutation of them and topologically
sorted relative to the already-scheduled names. -/
theorem sortLoop_ok_spec (allN : List String) (fuel : Nat) :
    ∀ (done : List String) (acc pending out : List Root),
    sortLoop allN fuel done acc pending = .ok out →
    ∃ suffix, out = acc ++ suffix ∧ List.Perm suffix pending ∧
      TopoFrom allN done suffix := by
  induction fuel with
  | zero =>
    intro done acc pending out h
    cases pending with
    | nil =>
      rw [sortLoop_nil] at h
      refine ⟨[], ?_, List.Perm.refl _, trivial⟩
      rw [List.append_nil]
      exact (Except.ok.inj h).symm
    | cons p pt =>
      rw [sortLoop_zero_cons] at h
      cases h
  | succ fuel ih =>
    intro done acc pending out h
    cases pending with
    | nil =>
      rw [sortLoop_nil] at h
      refine ⟨[], ?_, List.Perm.refl _, trivial⟩
      rw [List.append_nil]
      exact (Except.ok.inj h).symm
    | cons p pt =>
      rw [sortLoop_succ_cons] at h
      cases hpick : pickFirst allN done (p :: pt) with
      | none => rw [hpick] at h; cases h
      | some pr =>
        rw [hpick] at h
        obtain ⟨suffix, hout, hperm, htopo⟩ := ih _ _ _ _ h
        obtain ⟨A, B, hAB, hrest, hmet, -⟩ :=
          pickFirst_some allN done (p :: pt) pr.1 pr.2 (by rw [hpick])
        refine ⟨pr.1 :: suffix, ?_, ?_, ?_, htopo⟩
        · rw [hout]; simp
        · rw [hAB]
          have h1 : List.Perm suffix (A ++ B) := by rw [← hrest]; exact hperm
          exact (h1.cons pr.1).trans List.perm_middle.symm
        · exact depsMet_spec allN done pr.1 hmet

theorem contains_append_singleton (done : List String) (x n : String) :
    (done ++ [x]).contains n = (done.contains n || n == x) := by
  induction done with
  | nil => simp; rfl
  | cons d l ih =>
    simp only [List.cons_append, List.contains_cons, ih, Bool.or_assoc]

theorem filter_step (roots : List Root) (done : List String) (x : String) :
    roots.filter (fun r => !((done ++ [x]).contains r.dslName)) =
      (roots.filter (fun r => !(done.contains r.dslName))).filter
        (fun r => !(r.dslName == x)) := by
  rw [List.filter_filter]
  apply List.filter_congr
  intro r _
  rw [contains_append_singleton]
  cases done.contains r.dslName <;> cases r.dslName == x <;> rfl

theorem filter_middle_remove (A B : List Root) (rh : Root)
    (hnd : ((A ++ rh :: B).map Root.dslName).Nodup) :
    (A ++ rh :: B).filter (fun r => !(r.dslName == rh.dslName)) = A ++ B := by
  simp only [List.map_append, List.map_cons] at hnd
  have hmid := List.nodup_middle.mp hnd
  have hnot : rh.dslName ∉ A.map Root.dslName ++ B.map Root.dslName :=
    (List.nodup_cons.mp hmid).1
  rw [List.filter_append, List.filter_cons]
  have hself : (rh.dslName == rh.dslName) = true := by simp
  rw [show (!(rh.dslName == rh.dslName)) = false by rw [hself]; rfl]
  simp only [Bool.false_eq_true, if_false]
  have hA : A.filter (fun r => !(r.dslName == rh.dslName)) = A := by
    apply List.filter_eq_self.mpr
    intro a ha
    have : a.dslName ≠ rh.dslName := by
      intro hEq
      exact hnot (List.mem_append.mpr (Or.inl (hEq ▸ List.mem_map_of_mem Root.dslName ha)))
    simpa using fun hEq => this (by simpa using hEq)
  have hB : B.filter (fun r => !(r.dslName == rh.dslName)) = B := by
    apply List.filter_eq_self.mpr
    intro b hb
    have : b.dslName ≠ rh.dslName := by
      intro hEq
      exact hnot (List.mem_append.mpr (Or.inr (hEq ▸ List.mem_map_of_mem Root.dslName hb)))
    simpa using fun hEq => this (by simpa using hEq)
  rw [hA, hB]

/-- On success, the scheduling loop's output extends `acc` with a greedy
stable ordering: at each step the chosen root is the earliest-registered
one whose registered dependencies are all already scheduled. -/
theorem sortLoop_greedy (roots : List Root) (fuel : Nat)
    (hnd : (roots.map Root.dslName).Nodup) :
    ∀ (done : List String) (acc pending out : List Root),
    pending = roots.filter (fun r => !(done.contains r.dslName)) →
    sortLoop (roots.map Root.dslName) fuel done acc pending = .ok out →
    ∃ suffix, out = acc ++ suffix ∧ GreedyFrom roots done suffix := by
  induction fuel with
  | zero =>
    intro done acc pending out hpend h
    cases pending with
    | nil =>
      rw [sortLoop_nil] at h
      exact ⟨[], by rw [List.append_nil]; exact (Except.ok.inj h).symm, trivial⟩
    | cons p pt =>
      rw [sortLoop_zero_cons] at h
      cases h
  | succ fuel ih =>
    intro done acc pending out hpend h
    cases pending with
    | nil =>
      rw [sortLoop_nil] at h
      exact ⟨[], by rw [List.append_nil]; exact (Except.ok.inj h).symm, trivial⟩
    | cons p pt =>
      rw [sortLoop_succ_cons] at h
      cases hpick : pickFirst (roots.map Root.dslName) done (p :: pt) with
      | none => rw [hpick] at h; cases h
      | some pr =>
        rw [hpick] at h
        have hfirst : firstReady roots done = some pr.1 := by
          unfold firstReady
          rw [← hpend]
          exact pickFirst_find _ _ _ _ _ (by rw [hpick])
        obtain ⟨A, B, hAB, hrest, -, -⟩ :=
          pickFirst_some _ done (p :: pt) pr.1 pr.2 (by rw [hpick])
        have hndp : ((p :: pt).map Root.dslName).Nodup := by
          rw [hpend]
          exact hnd.sublist (List.Sublist.map Root.dslName (List.filter_sublist roots))
        have hpend' : pr.2 = roots.filter
            (fun r => !((done ++ [pr.1.dslName]).contains r.dslName)) := by
          rw [filter_step, ← hpend, hAB, filter_middle_remove A B pr.1 (hAB ▸ hndp), hrest]
        obtain ⟨suffix, hout, hgreedy⟩ := ih _ _ _ _ hpend' h
        exact ⟨pr.1 :: suffix, by rw [hout]; simp, hfirst, hgreedy⟩

theorem TopoFrom_positional (allN : List String) :
    ∀ (out : List Root) (done : List String),
    TopoFrom allN done out →
    (done ++ out.map Root.dslName).Nodup →
    ∀ i j (hi : i < out.length) (hj : j < out.length),
      (out.get ⟨j, hj⟩).dslName ∈ (out.get ⟨i, hi⟩).dependsOn →
      (out.get ⟨j, hj⟩).dslName ∈ allN → j < i := by
  intro out
  induction out with
  | nil =>
    intro done _ _ i j hi
    simp at hi
  | cons r rest ih =>
    intro done htopo hnd i j hi hj hdep hreg
    obtain ⟨hhead, htail⟩ := htopo
    cases i with
    | zero =>
      exfalso
      have hdone : ((r :: rest).get ⟨j, hj⟩).dslName ∈ done := hhead _ hdep hreg
      have hmem : ((r :: rest).get ⟨j, hj⟩).dslName ∈ (r :: rest).map Root.dslName :=
        List.mem_map_of_mem _ (List.get_mem _ _ _)
      exact (List.disjoint_of_nodup_append hnd) hdone hmem
    | succ i' =>
      cases j with
      | zero => exact Nat.succ_pos i'
      | succ j' =>
        have hnd' : ((done ++ [r.dslName]) ++ rest.map Root.dslName).Nodup := by
          rw [List.append_assoc, List.singleton_append]
          simpa using hnd
        exact Nat.succ_lt_succ
          (ih (done ++ [r.dslName]) htail hnd' i' j'
            (Nat.lt_of_succ_lt_succ hi) (Nat.lt_of_succ_lt_succ hj) hdep hreg)

theorem name_index_unique (out : List Root) (hnd : (out.map Root.dslName).Nodup)
    (i j : Nat) (hi : i < out.length) (hj : j < out.length)
    (h : (out.get ⟨i, hi⟩).dslName = (out.get ⟨j, hj⟩).dslName) : i = j := by
  have hlen : (out.map Root.dslName).length = out.length := List.length_map _ _
  have heq : (out.map Root.dslName).get ⟨i, by rw [hlen]; exact hi⟩ =
      (out.map Root.dslName).get ⟨j, by rw [hlen]; exact hj⟩ := by
    rw [List.get_map, List.get_map]
    exact h
  have := (List.Nodup.get_inj_iff hnd).mp heq
  exact congrArg Fin.val this

theorem roots_name_inj (roots : List Root) (hnd : (roots.map Root.dslName).Nodup) :
    ∀ x ∈ roots, ∀ y ∈ roots, x.dslName = y.dslName → x = y :=
  List.inj_on_of_nodup_map hnd

theorem depEdge_endpoints (roots : List Root) (a b : String)
    (hedge : depEdge roots a b = true) :
    ∃ ra ∈ roots, ra.dslName = a ∧ b ∈ ra.dependsOn ∧ b ∈ roots.map Root.dslName := by
  unfold depEdge at hedge
  cases hfind : roots.find? (fun r => r.dslName == a) with
  | none => rw [hfind] at hedge; cases hedge
  | some ra =>
    rw [hfind] at hedge
    obtain ⟨hdep, hregb⟩ := Bool.and_eq_true_iff.mp hedge
    refine ⟨ra, List.mem_of_find?_eq_some hfind, ?_, List.elem_iff.mp hdep,
      List.elem_iff.mp hregb⟩
    have := List.find?_some hfind
    simpa using this

theorem depEdge_positions (roots out : List Root)
    (hperm : List.Perm out roots)
    (hpos : ∀ i j (hi : i < out.length) (hj : j < out.length),
      (out.get ⟨j, hj⟩).dslName ∈ (out.get ⟨i, hi⟩).dependsOn →
      (out.get ⟨j, hj⟩).dslName ∈ roots.map Root.dslName → j < i)
    (a b : String) (hedge : depEdge roots a b = true) :
    ∃ (i j : Nat) (hi : i < out.length) (hj : j < out.length),
      (out.get ⟨i, hi⟩).dslName = a ∧ (out.get ⟨j, hj⟩).dslName = b ∧ j < i := by
  obtain ⟨ra, hra, hname, hdep, hregb⟩ := depEdge_endpoints roots a b hedge
  obtain ⟨rb, hrb, hnameb⟩ := List.mem_map.mp hregb
  obtain ⟨⟨i, hi⟩, hgi⟩ := List.mem_iff_get.mp (hperm.mem_iff.mpr hra)
  obtain ⟨⟨j, hj⟩, hgj⟩ := List.mem_iff_get.mp (hperm.mem_iff.mpr hrb)
  refine ⟨i, j, hi, hj, by rw [hgi, hname], by rw [hgj, hnameb], ?_⟩
  exact hpos i j hi hj (by rw [hgj, hgi, hnameb]; exact hdep)
    (by rw [hgj, hnameb]; exact hregb)

theorem reaches_positions (roots out : List Root)
    (hperm : List.Perm out roots)
    (hndout : (out.map Root.dslName).Nodup)
    (hpos : ∀ i j (hi : i < out.length) (hj : j < out.length),
      (out.get ⟨j, hj⟩).dslName ∈ (out.get ⟨i, hi⟩).dependsOn →
      (out.get ⟨j, hj⟩).dslName ∈ roots.map Root.dslName → j < i) :
    ∀ (k : Nat) (a b : String), reachesIn roots k a b = true →
    ∃ (i j : Nat) (hi : i < out.length) (hj : j < out.length),
      (out.get ⟨i, hi⟩).dslName = a ∧ (out.get ⟨j, hj⟩).dslName = b ∧ j < i := by
  intro k
  induction k with
  | zero =>
    intro a b h
    cases h
  | succ k ihk =>
    intro a b h
    obtain ⟨c, -, hc⟩ := List.any_eq_true.mp h
    obtain ⟨hedge, hcb⟩ := Bool.and_eq_true_iff.mp hc
    rcases Bool.or_eq_true_iff.mp hcb with hend | hcont
    · have hcb' : c = b := by simpa using hend
      exact depEdge_positions roots out hperm hpos a b (hcb' ▸ hedge)
    · obtain ⟨ia, jc, hia, hjc, hna, hnc, hlt1⟩ :=
        depEdge_positions roots out hperm hpos a c hedge
      obtain ⟨ic, jb, hic, hjb, hnc', hnb, hlt2⟩ := ihk c b hcont
      have hic_eq : ic = jc :=
        name_index_unique out hndout ic jc hic hjc (by rw [hnc', hnc])
      refine ⟨ia, jb, hia, hjb, hna, hnb, ?_⟩
      omega

theorem sortRoots_ok_acyclic (roots out : List Root)
    (hnd : (roots.map Root.dslName).Nodup)
    (h : SortRoots roots = .ok out) :
    List.Perm out roots ∧
    (∀ i j (hi : i < out.length) (hj : j < out.length),
      (out.get ⟨j, hj⟩).dslName ∈ (out.get ⟨i, hi⟩).dependsOn → j < i) ∧
    hasCycle roots = false := by
  obtain ⟨suffix, hout, hperm, htopo⟩ :=
    sortLoop_ok_spec (roots.map Root.dslName) roots.length [] [] roots out h
  rw [List.nil_append] at hout
  subst hout
  have hndout : (out.map Root.dslName).Nodup :=
    ((hperm.map Root.dslName).nodup_iff).mpr hnd
  have hpos := TopoFrom_positional (roots.map Root.dslName) out [] htopo
    (by simpa using hndout)
  have hpos' : ∀ i j (hi : i < out.length) (hj : j < out.length),
      (out.get ⟨j, hj⟩).dslName ∈ (out.get ⟨i, hi⟩).dependsOn → j < i := by
    intro i j hi hj hdep
    refine hpos i j hi hj hdep ?_
    have : out.get ⟨j, hj⟩ ∈ roots := hperm.subset (List.get_mem _ _ _)
    exact List.mem_map_of_mem _ this
  refine ⟨hperm, hpos', ?_⟩
  by_contra hcyc
  have hcyc' : hasCycle roots = true := by
    cases hval : hasCycle roots
    · exact absurd hval hcyc
    · rfl
  obtain ⟨r, hr, hreach⟩ := List.any_eq_true.mp hcyc'
  obtain ⟨i, j, hi, hj, hni, hnj, hlt⟩ :=
    reaches_positions roots out hperm hndout hpos roots.length r.dslName r.dslName hreach
  have : i = j := name_index_unique out hndout i j hi hj (by rw [hni, hnj])
  omega

/-- For a deadlocked pending root named `a`: the first of its registered,
not-yet-scheduled dependencies (used to walk the dependency graph when
scheduling is stuck). -/
def blockedDep (roots : List Root) (done : List String) (pending : List Root)
    (a : String) : String :=
  match pending.find? (fun r => r.dslName == a) with
  | some r =>
    (r.dependsOn.find?
      (fun d => (roots.map Root.dslName).contains d && !(done.contains d))).getD ""
  | none => a

theorem iterate_reaches (roots : List Root) (P : List String) (f : String → String)
    (hsub : ∀ a ∈ P, a ∈ roots.map Root.dslName)
    (hf : ∀ a ∈ P, f a ∈ P ∧ depEdge roots a (f a) = true) :
    ∀ (k : Nat), 1 ≤ k → ∀ m, k ≤ m → ∀ a ∈ P,
      reachesIn roots m a (f^[k] a) = true := by
  intro k
  induction k with
  | zero => intro h; omega
  | succ k ihk =>
    intro _ m hm a haP
    obtain ⟨m', rfl⟩ : ∃ m', m = m' + 1 := ⟨m - 1, by omega⟩
    rw [show reachesIn roots (m' + 1) a (f^[k + 1] a) =
      (roots.map Root.dslName).any (fun c => depEdge roots a c &&
        (c == f^[k + 1] a || reachesIn roots m' c (f^[k + 1] a))) from rfl]
    apply List.any_eq_true.mpr
    refine ⟨f a, hsub _ (hf a haP).1, ?_⟩
    apply Bool.and_eq_true_iff.mpr
    refine ⟨(hf a haP).2, ?_⟩
    cases k with
    | zero =>
      apply Bool.or_eq_true_iff.mpr
      left
      rw [Function.iterate_one]
      simp
    | succ k' =>
      apply Bool.or_eq_true_iff.mpr
      right
      rw [Function.iterate_succ_apply]
      exact ihk (by omega) m' (by omega) (f a) (hf a haP).1

theorem deadlock_cycle (roots : List Root) (hnd : (roots.map Root.dslName).Nodup)
    (done : List String) (pending : List Root)
    (hpend : pending = roots.filter (fun r => !(done.contains r.dslName)))
    (hne : pending ≠ [])
    (hstuck : ∀ r ∈ pending, depsMet (roots.map Root.dslName) done r = false) :
    hasCycle roots = true := by
  have hpsubr : ∀ r ∈ pending, r ∈ roots := by
    intro r hr
    rw [hpend] at hr
    exact List.mem_of_mem_filter hr
  have hsub : ∀ a ∈ pending.map Root.dslName, a ∈ roots.map Root.dslName := by
    intro a ha
    obtain ⟨r, hr, hrname⟩ := List.mem_map.mp ha
    exact hrname ▸ List.mem_map_of_mem Root.dslName (hpsubr r hr)
  have hf : ∀ a ∈ pending.map Root.dslName,
      blockedDep roots done pending a ∈ pending.map Root.dslName ∧
      depEdge roots a (blockedDep roots done pending a) = true := by
    intro a haP
    obtain ⟨ra, hra, hrname⟩ := List.mem_map.mp haP
    have hfindsome : (pending.find? (fun r => r.dslName == a)).isSome := by
      rw [List.find?_isSome]
      exact ⟨ra, hra, by simp [hrname]⟩
    obtain ⟨r', hfind⟩ := Option.isSome_iff_exists.mp hfindsome
    have hr'mem : r' ∈ pending := List.mem_of_find?_eq_some hfind
    have hr'name : r'.dslName = a := by simpa using List.find?_some hfind
    have hstuck' := hstuck r' hr'mem
    have hex : ∃ d ∈ r'.dependsOn,
        ((roots.map Root.dslName).contains d && !(done.contains d)) = true := by
      have hnall : ¬ ∀ d ∈ r'.dependsOn,
          (done.contains d || !((roots.map Root.dslName).contains d)) = true := by
        intro hall
        have : depsMet (roots.map Root.dslName) done r' = true :=
          List.all_eq_true.mpr hall
        rw [hstuck'] at this
        cases this
      push_neg at hnall
      obtain ⟨d, hd, hdp⟩ := hnall
      refine ⟨d, hd, ?_⟩
      have hdp' : (done.contains d || !((roots.map Root.dslName).contains d)) = false :=
        Bool.eq_false_iff.mpr hdp
      obtain ⟨h1, h2⟩ := Bool.or_eq_false_iff.mp hdp'
      have h2' : (roots.map Root.dslName).contains d = true := by
        cases hc : (roots.map Root.dslName).contains d
        · rw [hc] at h2; cases h2
        · rfl
      rw [h2', h1]
      rfl
    have hinner : (r'.dependsOn.find?
        (fun d => (roots.map Root.dslName).contains d && !(done.contains d))).isSome := by
      rw [List.find?_isSome]
      exact hex
    obtain ⟨d0, hd0find⟩ := Option.isSome_iff_exists.mp hinner
    have hd0mem : d0 ∈ r'.dependsOn := List.mem_of_find?_eq_some hd0find
    have hd0p : ((roots.map Root.dslName).contains d0 && !(done.contains d0)) = true := by
      have := List.find?_some hd0find
      simpa using this
    obtain ⟨hd0reg, hd0nd⟩ := Bool.and_eq_true_iff.mp hd0p
    have hfa : blockedDep roots done pending a = d0 := by
      simp only [blockedDep, hfind, hd0find, Option.getD_some]
    constructor
    · rw [hfa]
      obtain ⟨rd, hrd, hrdname⟩ := List.mem_map.mp (List.elem_iff.mp hd0reg)
      have hrdp : rd ∈ pending := by
        rw [hpend]
        refine List.mem_filter.mpr ⟨hrd, ?_⟩
        rw [hrdname]
        exact hd0nd
      exact hrdname ▸ List.mem_map_of_mem Root.dslName hrdp
    · rw [hfa]
      have hfrsome : (roots.find? (fun r => r.dslName == a)).isSome := by
        rw [List.find?_isSome]
        exact ⟨r', hpsubr r' hr'mem, by simp [hr'name]⟩
      obtain ⟨rx, hrx⟩ := Option.isSome_iff_exists.mp hfrsome
      have hrxname : rx.dslName = a := by simpa using List.find?_some hrx
      have hrxr' : rx = r' := roots_name_inj roots hnd rx (List.mem_of_find?_eq_some hrx)
        r' (hpsubr r' hr'mem) (by rw [hrxname, hr'name])
      rw [show depEdge roots a d0 =
        (match roots.find? (fun r => r.dslName == a) with
         | some r => r.dependsOn.contains d0 && (roots.map Root.dslName).contains d0
         | none => false) from rfl, hrx]
      simp only [hrxr']
      exact Bool.and_eq_true_iff.mpr ⟨List.elem_iff.mpr hd0mem, hd0reg⟩
  obtain ⟨a0, ha0⟩ : ∃ a, a ∈ pending.map Root.dslName := by
    cases hP' : pending.map Root.dslName with
    | nil => exact absurd (List.map_eq_nil.mp hP') hne
    | cons x xs => exact ⟨x, by simp [hP']⟩
  have hseq : ∀ i : Nat, (blockedDep roots done pending)^[i] a0 ∈
      pending.map Root.dslName := by
    intro i
    induction i with
    | zero => simpa using ha0
    | succ i ihi =>
      rw [Function.iterate_succ_apply']
      exact (hf _ ihi).1
  have hcard : ((pending.map Root.dslName).toFinset).card <
      (Finset.range ((pending.map Root.dslName).length + 1)).card := by
    rw [Finset.card_range]
    exact Nat.lt_succ_of_le (List.toFinset_card_le _)
  obtain ⟨i, hi, j, hj, hij, hseqeq⟩ :=
    Finset.exists_ne_map_eq_of_card_lt_of_maps_to hcard
      (fun i _ => List.mem_toFinset.mpr (hseq i))
  have main : ∀ i j : Nat, i < j → j < (pending.map Root.dslName).length + 1 →
      (blockedDep roots done pending)^[i] a0 = (blockedDep roots done pending)^[j] a0 →
      hasCycle roots = true := by
    intro i j hlt hjb heq
    have hxP : (blockedDep roots done pending)^[i] a0 ∈ pending.map Root.dslName :=
      hseq i
    have hfix : (blockedDep roots done pending)^[j - i]
        ((blockedDep roots done pending)^[i] a0) =
        (blockedDep roots done pending)^[i] a0 := by
      rw [← Function.iterate_add_apply, show (j - i) + i = j by omega]
      exact heq.symm
    have hk1 : 1 ≤ j - i := by omega
    have hkm : j - i ≤ roots.length := by
      have h1 : (pending.map Root.dslName).length = pending.length := List.length_map _ _
      have h2 : pending.length ≤ roots.length := by
        rw [hpend]
        exact List.length_filter_le _ _
      omega
    have hreach := iterate_reaches roots (pending.map Root.dslName)
      (blockedDep roots done pending) hsub hf (j - i) hk1 roots.length hkm
      ((blockedDep roots done pending)^[i] a0) hxP
    rw [hfix] at hreach
    obtain ⟨rx, hrxp, hrxname⟩ := List.mem_map.mp hxP
    apply List.any_eq_true.mpr
    exact ⟨rx, hpsubr rx hrxp, by rw [hrxname]; exact hreach⟩
  rcases lt_or_gt_of_ne hij with hlt | hgt
  · exact main i j hlt (Finset.mem_range.mp hj) hseqeq
  · exact main j i hgt (Finset.mem_range.mp hi) hseqeq.symm

theorem pending_step_length (allN done : List String) (pending : List Root) (r : Root)
    (rest : List Root) (h : pickFirst allN done pending = some (r, rest)) :
    rest.length + 1 = pending.length := by
  obtain ⟨A, B, hAB, hrest, -, -⟩ := pickFirst_some allN done pending r rest h
  rw [hAB, hrest]
  simp only [List.length_append, List.length_cons]
  omega

theorem pickFirst_maintain (roots : List Root)
    (hnd : (roots.map Root.dslName).Nodup) (done : List String)
    (pending : List Root) (r : Root) (rest : List Root)
    (hpend : pending = roots.filter (fun x => !(done.contains x.dslName)))
    (hpick : pickFirst (roots.map Root.dslName) done pending = some (r, rest)) :
    rest = roots.filter (fun x => !((done ++ [r.dslName]).contains x.dslName)) := by
  obtain ⟨A, B, hAB, hrest, -, -⟩ := pickFirst_some _ _ _ _ _ hpick
  have hndp : (pending.map Root.dslName).Nodup := by
    rw [hpend]
    exact hnd.sublist (List.Sublist.map Root.dslName (List.filter_sublist roots))
  rw [filter_step, ← hpend, hAB, filter_middle_remove A B r (hAB ▸ hndp), hrest]

/-- When the dependency relation is acyclic, the scheduling loop always
succeeds: at every step some pending root is ready, otherwise the stuck
pending roots would exhibit a cycle. -/
theorem sortLoop_total (roots : List Root) (hnd : (roots.map Root.dslName).Nodup)
    (hacyc : hasCycle roots = false) (fuel : Nat) :
    ∀ (done : List String) (acc pending : List Root),
    pending = roots.filter (fun r => !(done.contains r.dslName)) →
    pending.length ≤ fuel →
    ∃ out, sortLoop (roots.map Root.dslName) fuel done acc pending = .ok out := by
  induction fuel with
  | zero =>
    intro done acc pending hpend hlen
    have hnil : pending = [] := List.length_eq_zero.mp (Nat.le_zero.mp hlen)
    subst hnil
    exact ⟨acc, sortLoop_nil _ _ _ _⟩
  | succ fuel ih =>
    intro done acc pending hpend hlen
    cases pending with
    | nil => exact ⟨acc, sortLoop_nil _ _ _ _⟩
    | cons p pt =>
      cases hpick : pickFirst (roots.map Root.dslName) done (p :: pt) with
      | none =>
        exfalso
        have hstuck := pickFirst_none _ _ _ hpick
        have hcyc : hasCycle roots = true :=
          deadlock_cycle roots hnd done (p :: pt) hpend (List.cons_ne_nil p pt)
            (fun r hr => hstuck r hr)
        rw [hacyc] at hcyc
        cases hcyc
      | some pr =>
        have hpend' := pickFirst_maintain roots hnd done (p :: pt) pr.1 pr.2 hpend
          (by rw [hpick])
        have hlen' : pr.2.length ≤ fuel := by
          have hstep := pending_step_length _ done (p :: pt) pr.1 pr.2 (by rw [hpick])
          simp only [List.length_cons] at hlen hstep
          omega
        obtain ⟨out, hout⟩ := ih (done ++ [pr.1.dslName]) (acc ++ [pr.1]) pr.2 hpend' hlen'
        refine ⟨out, ?_⟩
        rw [sortLoop_succ_cons, hpick]
        exact hout

/-- The scheduling loop fails only with the descriptive cycle message,
naming a non-empty subset of the pending roots. -/
theorem sortLoop_error_spec (allN : List String) (fuel : Nat) :
    ∀ (done : List String) (acc pending : List Root) (m : String),
    sortLoop allN fuel done acc pending = .error m →
    ∃ pend, pend ≠ [] ∧ List.Sublist pend pending ∧ m = cycleMsg pend := by
  induction fuel with
  | zero =>
    intro done acc pending m h
    cases pending with
    | nil => rw [sortLoop_nil] at h; cases h
    | cons p pt =>
      rw [sortLoop_zero_cons] at h
      exact ⟨p :: pt, List.cons_ne_nil p pt, List.Sublist.refl _,
        (Except.error.inj h).symm⟩
  | succ fuel ih =>
    intro done acc pending m h
    cases pending with
    | nil => rw [sortLoop_nil] at h; cases h
    | cons p pt =>
      rw [sortLoop_succ_cons] at h
      cases hpick : pickFirst allN done (p :: pt) with
      | none =>
        rw [hpick] at h
        exact ⟨p :: pt, List.cons_ne_nil p pt, List.Sublist.refl _,
          (Except.error.inj h).symm⟩
      | some pr =>
        rw [hpick] at h
        obtain ⟨pend, hne, hsub, hm⟩ := ih _ _ _ _ h
        obtain ⟨A, B, hAB, hrest, -, -⟩ := pickFirst_some allN done (p :: pt) pr.1 pr.2
          (by rw [hpick])
        refine ⟨pend, hne, ?_, hm⟩
        rw [hAB]
        refine hsub.trans ?_
        rw [hrest]
        exact List.Sublist.append (List.Sublist.refl A) (List.sublist_cons_self pr.1 B)

theorem rootsFilterNil (roots : List Root) :
    roots = roots.filter (fun r => !(([] : List String).contains r.dslName)) :=
  (List.filter_eq_self.mpr (fun _ _ => rfl)).symm

/-- Claim C5 (amended): for root lists with pairwise-distinct names —
which the source requires ("Registered DSL roots must have unique DSL
names") — scheduling is modelled from the spec (`Context.SortRoots` is
not among the sources): (a) when the dependency relation among
registered roots is acyclic, it succeeds with a permutation of the roots
in which every root appears strictly after every registered root it
depends on, choosing at each step the earliest-registered root whose
registered dependencies are all scheduled (the stable tie-break; full
preservation of registration order among every mutually independent pair
is impossible — see the counterexample); (b) when the relation has a
cycle, scheduling fails with the descriptive error naming a non-empty
set of unschedulable roots, `RunDSL` returns that error unchanged and
the evaluation state is untouched — no expression is evaluated. -/
theorem c5_sort_roots (roots : List Root) (hnd : (roots.map Root.dslName).Nodup) :
    (hasCycle roots = false →
      ∃ out, SortRoots roots = .ok out ∧
        List.Perm out roots ∧
        (∀ i j (hi : i < out.length) (hj : j < out.length),
          (out.get ⟨j, hj⟩).dslName ∈ (out.get ⟨i, hi⟩).dependsOn → j < i) ∧
        GreedyFrom roots [] out) ∧
    (hasCycle roots = true →
      ∃ pend m, pend ≠ [] ∧ List.Sublist pend roots ∧ m = cycleMsg pend ∧
        SortRoots roots = .error m ∧
        ∀ st0 : EvalState, st0.roots = roots →
          RunDSL st0 = (st0, some (.sortError m))) := by
  constructor
  · intro hacyc
    obtain ⟨out, hok⟩ := sortLoop_total roots hnd hacyc roots.length [] [] roots
      (rootsFilterNil roots) (Nat.le_refl _)
    obtain ⟨hperm, hpos, -⟩ := sortRoots_ok_acyclic roots out hnd hok
    obtain ⟨suffix, hout, hgreedy⟩ := sortLoop_greedy roots roots.length hnd [] [] roots
      out (rootsFilterNil roots) hok
    rw [List.nil_append] at hout
    subst hout
    exact ⟨out, hok, hperm, hpos, hgreedy⟩
  · intro hcyc
    cases hS : SortRoots roots with
    | ok out =>
      obtain ⟨-, -, hacyc⟩ := sortRoots_ok_acyclic roots out hnd hS
      rw [hacyc] at hcyc
      cases hcyc
    | error m =>
      obtain ⟨pend, hne, hsub, hm⟩ := sortLoop_error_spec (roots.map Root.dslName)
        roots.length [] [] roots m hS
      refine ⟨pend, m, hne, hsub, hm, rfl, ?_⟩
      intro st0 h0
      simp only [RunDSL, h0, hS]

def exA : Root := .mk "A" ["C"] []

def exB : Root := .mk "B" [] []

def exC : Root := .mk "C" [] []

/-- Claim C5 witness: on the acyclic instance `[A (depends on C), B, C]`
scheduling succeeds with a topologically sorted, greedily stable
permutation. -/
theorem c5_witness :
    ∃ out, SortRoots [exA, exB, exC] = .ok out ∧
      List.Perm out [exA, exB, exC] ∧
      (∀ i j (hi : i < out.length) (hj : j < out.length),
        (out.get ⟨j, hj⟩).dslName ∈ (out.get ⟨i, hi⟩).dependsOn → j < i) ∧
      GreedyFrom [exA, exB, exC] [] out :=
  (c5_sort_roots [exA, exB, exC] (by decide)).1 (by decide)

/-- Claim C5 counterexample: with roots registered in the order
`A (depends on C), B, C`, the pair `A, B` is mutually independent (no
dependency path in either direction, checked up to the maximal simple
path length 3), yet scheduling produces `[B, C, A]` — `B` before `A` —
so registration order is NOT preserved among mutually independent roots.
(`A` must wait for `C`; the greedy stable scheduler hands the first slot
to `B`.) -/
theorem c5_counterexample :
    SortRoots [exA, exB, exC] = .ok [exB, exC, exA] ∧
    hasCycle [exA, exB, exC] = false ∧
    reachesIn [exA, exB, exC] 3 "A" "B" = false ∧
    reachesIn [exA, exB, exC] 3 "B" "A" = false ∧
    [exA, exB, exC].map Root.dslName = ["A", "B", "C"] ∧
    [exB, exC, exA].map Root.dslName = ["B", "C", "A"] :=
  ⟨rfl, rfl, rfl, rfl, rfl, rfl⟩

/-- No scheduler at all can satisfy the claim on the counterexample
instance: in any ordering of `A, B, C` that respects the one dependency
(`C` before `A`), at least one of the two mutually independent pairs
(`A` before `B`, `B` before `C`) loses its registration order. -/
theorem c5_no_preserving_order :
    ∀ names ∈ ([["A", "B", "C"], ["A", "C", "B"], ["B", "A", "C"],
        ["B", "C", "A"], ["C", "A", "B"], ["C", "B", "A"]] : List (List String)),
      names.indexOf "C" < names.indexOf "A" →
      ¬(names.indexOf "A" < names.indexOf "B" ∧
        names.indexOf "B" < names.indexOf "C") := by
  decide

end GoaEval
